import Mathlib

/-!
Verification of the MCTS core of the willsmith repository
(src/agents/game/mcts_agent.py, with the abstract game interface of
src/willsmith/game.py).

The agent's game tree is embedded as an arena of nodes addressed by
natural-number ids (`MTree`); Python object references become ids, the
`None` parent becomes `Option.none`, and the `children` dict (insertion
ordered, unique keys) becomes an association list.  Abstract game states
are embedded as an inductive transition system `Game`: a state is either
terminal (`fin`, carrying the winning id reported by `get_winning_id`)
or offers a list of legal actions with a successor function.  Actions
and agent identifiers are naturals.  Randomness (Python's
`random.choice`) is supplied as explicit oracle numbers; a draw of
`choice(xs)` with oracle `r` yields `xs[r % xs.length]`.  The wall-clock
budget of `search` is abstracted into the number of completed playouts
(the loop checks elapsed time only between playouts, so a run of the
Python loop is exactly a finite sequence of playouts).  Python float
arithmetic in the UCT formula is idealised as real arithmetic.
Exceptions become `Except Err`; loops whose termination is not
structural (backpropagation over parent pointers) take explicit fuel,
and exhausting the fuel is an error marker for divergence.
-/

/-- Exceptions that the Python code can raise, plus `FuelOut` marking a
non-terminating parent walk and `Internal` marking an arena id that has
no node (impossible with Python object references). -/
inductive Err where
  | KeyErr
  | ValueErr
  | ZeroDivErr
  | IndexErr
  | RuntimeErr
  | FuelOut
  | Internal
deriving DecidableEq, Repr

/-- Abstract game state (willsmith/game.py interface): either terminal,
carrying `current_agent_id` and the winner reported by
`get_winning_id`, or a non-terminal state carrying `current_agent_id`,
the list returned by `get_legal_actions`, and the successor function of
`take_action`. -/
inductive Game where
  | fin (cur : Nat) (winner : Option Nat)
  | act (cur : Nat) (legal : List Nat) (next : Nat → Game)

/-- Game.is_terminal. -/
def isTerminal : Game → Bool
  | .fin _ _ => true
  | .act _ _ _ => false

/-- Game.get_legal_actions: empty when terminal. -/
def legalActions : Game → List Nat
  | .fin _ _ => []
  | .act _ legal _ => legal

/-- Game.current_agent_id. -/
def curOf : Game → Nat
  | .fin c _ => c
  | .act c _ _ => c

/-- Game.get_winning_id (None while the game is still running). -/
def winnerOf : Game → Option Nat
  | .fin _ w => w
  | .act _ _ _ => none

/-- Game.take_action: rejects illegal actions (RuntimeError in the
source, here `none`); otherwise advances to the successor state. -/
def takeAct : Game → Nat → Option Game
  | .fin _ _, _ => none
  | .act _ legal next, a => if a ∈ legal then some (next a) else none

/-- Game.copy: `deepcopy`, an independent value equal to the original
(the display attribute, which the copy drops, is not modelled). -/
def copyGame (g : Game) : Game := g

/-- Games the driver can legitimately run: legal-action lists are
duplicate-free, and a non-terminal state offers at least one action.
(Required of the concrete games; both repository games satisfy it.) -/
inductive WFGame : Game → Prop where
  | fin : ∀ c w, WFGame (.fin c w)
  | act : ∀ c legal next, legal ≠ [] → legal.Nodup →
      (∀ a ∈ legal, WFGame (next a)) → WFGame (.act c legal next)

/-- MCTSAgent.Node: parent back-reference, insertion-ordered children
mapping (action to child id), owning agent id, and the two counters. -/
structure Node where
  parent : Option Nat
  children : List (Nat × Nat)
  agent_id : Option Nat
  wins : Nat
  trials : Nat
deriving DecidableEq, Repr

/-- Node(None, None): the fresh node built by MCTSAgent._reset and by
the KeyError branch of MCTSAgent._take_action. -/
def freshNode : Node :=
  { parent := none, children := [], agent_id := none, wins := 0, trials := 0 }

/-- The agent's whole game tree: the arena of every node ever created
(ids are list positions; Python's garbage nodes simply stay in the
arena) plus the current root id. -/
structure MTree where
  nodes : List Node
  root : Nat
deriving DecidableEq, Repr

/-- The tree right after MCTSAgent._reset: a single fresh root. -/
def initTree : MTree := { nodes := [freshNode], root := 0 }

/-- Dereference an arena id. -/
def getNode (t : MTree) (i : Nat) : Option Node := t.nodes[i]?

/-- Overwrite the node stored at an arena id. -/
def setNode (t : MTree) (i : Nat) (nd : Node) : MTree :=
  { t with nodes := t.nodes.set i nd }

/-- Node.trials as read through the arena (0 for an id with no node,
which never occurs on ids taken from a live tree). -/
def trialsOf (t : MTree) (i : Nat) : Nat :=
  ((getNode t i).map Node.trials).getD 0

/-- Node.update_node: one backpropagation visit.  `wins` additionally
increments iff `agent_id` is set and equals the winning id. -/
def updateNode (nd : Node) (winning : Option Nat) : Node :=
  { nd with
    wins := nd.wins +
      (match nd.agent_id with
       | none => 0
       | some aid => if winning = some aid then 1 else 0),
    trials := nd.trials + 1 }

/-- CPython's `max(l, key=f)`: scan left to right keeping the current
best, replacing it only on a strictly greater key, so the first
maximal element wins; `none` on an empty list (ValueError). -/
def pymax {α β : Type} [LinearOrder β] (f : α → β) : List α → Option α
  | [] => none
  | x :: xs => some (xs.foldl (fun b y => if f b < f y then y else b) x)

/-- MCTSAgent.Node.max_trials: the child key with the maximum trial
count (`max(self.children, key=...)` iterates the dict keys in
insertion order). -/
def maxTrials (t : MTree) (i : Nat) : Except Err Nat :=
  match getNode t i with
  | none => .error .Internal
  | some nd =>
    match pymax (fun p : Nat × Nat => trialsOf t p.2) nd.children with
    | none => .error .ValueErr
    | some p => .ok p.1

/-- MCTSAgent._take_action: move the root to the child for the action;
on KeyError reset to a fresh root (the old nodes become garbage but
stay in the arena). -/
def treeTakeAction (t : MTree) (a : Nat) : MTree :=
  match (getNode t t.root).bind (fun nd => nd.children.lookup a) with
  | some c => { t with root := c }
  | none => { nodes := t.nodes ++ [freshNode], root := t.nodes.length }

/-- MCTSAgent._backpropagation: walk parent references from the given
node until `None`, updating every visited node.  Fuel bounds the walk;
running out marks a walk that Python would never finish or an id with
no node. -/
def backprop (winning : Option Nat) : Nat → Option Nat → MTree → Except Err MTree
  | _, none, t => .ok t
  | 0, some _, _ => .error .FuelOut
  | fuel + 1, some i, t =>
    match getNode t i with
    | none => .error .Internal
    | some nd => backprop winning fuel nd.parent (setNode t i (updateNode nd winning))

/-- The list of ids the backpropagation walk visits, in order (ghost
observer of the same parent walk). -/
def parentChain (t : MTree) : Nat → Option Nat → Option (List Nat)
  | _, none => some []
  | 0, some _ => none
  | fuel + 1, some i =>
    match getNode t i with
    | none => none
    | some nd => (parentChain t fuel nd.parent).map (fun l => i :: l)

/-- The parent walk from a start node truncated at the first occurrence
of `root` (inclusive): the path the spec says backpropagation covers.
`none` when the walk ends or runs out of fuel before reaching `root`. -/
def pathInclRoot (t : MTree) (root : Nat) : Nat → Nat → Option (List Nat)
  | 0, i => if i = root then some [root] else none
  | fuel + 1, i =>
    if i = root then some [root]
    else
      match (getNode t i).bind Node.parent with
      | none => none
      | some p => (pathInclRoot t root fuel p).map (fun l => i :: l)

/-- MCTSAgent._simulation with the default random policy
(_random_simulation): play random legal actions until terminal, then
report get_winning_id.  One oracle number is consumed per step;
`choice` of an empty list is IndexError. -/
def simulation : Game → List Nat → Except Err (Option Nat)
  | .fin _ w, _ => .ok w
  | .act _ legal next, rs =>
    match legal[(rs.headD 0) % legal.length]? with
    | none => .error .IndexErr
    | some a => simulation (next a) rs.tail

/-- MCTSAgent._expansion: pick one untried legal action at random,
create a child node (parent = frontier, agent_id = the mover of the
current working state, zero statistics), attach it, apply the action;
with no untried action return the frontier unchanged. -/
def expansion (t : MTree) (i : Nat) (r : Nat) (s : Game) : Except Err (Nat × MTree × Game) :=
  match getNode t i with
  | none => .error .Internal
  | some nd =>
    let possible := (legalActions s).filter (fun a => (nd.children.lookup a).isNone)
    if possible = [] then .ok (i, t, s)
    else
      match possible[r % possible.length]? with
      | none => .error .Internal
      | some a =>
        let newId := t.nodes.length
        let child : Node :=
          { parent := some i, children := [], agent_id := some (curOf s),
            wins := 0, trials := 0 }
        let t' : MTree :=
          { nodes := (t.nodes.set i { nd with children := nd.children ++ [(a, newId)] }) ++ [child],
            root := t.root }
        match takeAct s a with
        | none => .error .RuntimeErr
        | some s' => .ok (newId, t', s')

/-- A tree policy as injected in MCTSAgent.__init__: given the node and
the working state, produce the next action or raise. -/
def Policy : Type := MTree → Nat → Game → Except Err Nat

/-- MCTSAgent._selection with tree policy `pol`: descend while every
legal action is already expanded (count comparison, as in the source)
and the node has children; apply the chosen action to the working
state. -/
def selection (pol : Policy) (t : MTree) : Nat → Game → Except Err (Nat × Game)
  | i, .fin c w =>
    match getNode t i with
    | none => .error .Internal
    | some nd =>
      if 0 > nd.children.length ∨ nd.children = [] then .ok (i, .fin c w)
      else
        match pol t i (.fin c w) with
        | .error e => .error e
        | .ok a =>
          match nd.children.lookup a with
          | none => .error .KeyErr
          | some _ => .error .RuntimeErr
  | i, .act c legal next =>
    match getNode t i with
    | none => .error .Internal
    | some nd =>
      if legal.length > nd.children.length ∨ nd.children = [] then .ok (i, .act c legal next)
      else
        match pol t i (.act c legal next) with
        | .error e => .error e
        | .ok a =>
          match nd.children.lookup a with
          | none => .error .KeyErr
          | some ch =>
            if a ∈ legal then selection pol t ch (next a)
            else .error .RuntimeErr

/-- One playout of MCTSAgent.search: copy the caller's state, select,
expand, simulate, backpropagate.  `r` feeds expansion's random choice,
`rs` the rollout.  Backpropagation gets fuel equal to the arena size,
enough for every parent chain a run of the agent can create. -/
def playout (pol : Policy) (t : MTree) (s : Game) (r : Nat) (rs : List Nat) :
    Except Err MTree :=
  match selection pol t t.root (copyGame s) with
  | .error e => .error e
  | .ok (f, s₁) =>
    match expansion t f r s₁ with
    | .error e => .error e
    | .ok (nid, t₂, s₂) =>
      match simulation s₂ rs with
      | .error e => .error e
      | .ok w => backprop w t₂.nodes.length (some nid) t₂

/-- The playout loop of MCTSAgent.search: one playout per oracle pair,
threading the tree; the caller's state is re-copied each iteration. -/
def searchGo (pol : Policy) : List (Nat × List Nat) → MTree → Game → Except Err MTree
  | [], t, _ => .ok t
  | (r, rs) :: rest, t, s =>
    match playout pol t s r rs with
    | .error e => .error e
    | .ok t' => searchGo pol rest t' s

/-- MCTSAgent.search: run the playouts the time budget admits (here:
one per oracle entry), then return the most-played root action.  The
returned triple also exposes the final tree and the caller's state
variable at return, for the frame claims. -/
def search (pol : Policy) (t : MTree) (s : Game) (rands : List (Nat × List Nat)) :
    Except Err (Nat × MTree × Game) :=
  match searchGo pol rands t s with
  | .error e => .error e
  | .ok t' =>
    match maxTrials t' t'.root with
    | .error e => .error e
    | .ok a => .ok (a, t', s)

/-- The UCT score of a child `cd` of node `nd` (MCTSAgent._UCT body):
wins/trials plus EXPLORATION_PARAM = sqrt 2 times
sqrt (ln (node trials) / child trials); float arithmetic idealised over
the reals. -/
noncomputable def uctScore (nd cd : Node) : ℝ :=
  (cd.wins : ℝ) / (cd.trials : ℝ) +
    Real.sqrt 2 * Real.sqrt (Real.log (nd.trials : ℝ) / (cd.trials : ℝ))

/-- The `results` dict built by MCTSAgent._UCT's loop, in insertion
order: KeyError on a legal action with no child, ZeroDivisionError on a
child with zero trials (wins/trials), ValueError on `log 0` when the
node itself has zero trials. -/
noncomputable def uctBuild (t : MTree) (nd : Node) : List Nat → Except Err (List (Nat × ℝ))
  | [] => .ok []
  | a :: as =>
    match nd.children.lookup a with
    | none => .error .KeyErr
    | some c =>
      match getNode t c with
      | none => .error .Internal
      | some cd =>
        if cd.trials = 0 then .error .ZeroDivErr
        else if nd.trials = 0 then .error .ValueErr
        else
          match uctBuild t nd as with
          | .error e => .error e
          | .ok l => .ok ((a, uctScore nd cd) :: l)

/-- MCTSAgent._UCT, the default tree policy: score every legal action
of the working state and return the first action attaining the maximal
score (`max(results.keys(), key=results.get)`); ValueError when the
state has no legal action. -/
noncomputable def uct : Policy := fun t i s =>
  match getNode t i with
  | none => .error .Internal
  | some nd =>
    match uctBuild t nd (legalActions s) with
    | .error e => .error e
    | .ok scores =>
      match pymax (fun p : Nat × ℝ => p.2) scores with
      | none => .error .ValueErr
      | some p => .ok p.1

/-- The UCT score MCTSAgent._UCT assigns to a legal action: the score
of the child node the action's children entry leads to (0 as junk
value for a missing child, a case _UCT raises on instead). -/
noncomputable def scoreOf (t : MTree) (nd : Node) (a : Nat) : ℝ :=
  match nd.children.lookup a with
  | none => 0
  | some c =>
    match getNode t c with
    | none => 0
    | some cd => uctScore nd cd

/-- Ghost observer: the node a playout's backpropagation starts from
(the node returned by expansion), recomputed from the same inputs. -/
def playoutStart (pol : Policy) (t : MTree) (s : Game) (r : Nat) : Option Nat :=
  match selection pol t t.root (copyGame s) with
  | .error _ => none
  | .ok (f, s₁) =>
    match expansion t f r s₁ with
    | .error _ => none
    | .ok (nid, _, _) => some nid

/-- Ghost observer: the full list of ids a playout's backpropagation
visits, recomputed from the same inputs. -/
def playoutChain (pol : Policy) (t : MTree) (s : Game) (r : Nat) : Option (List Nat) :=
  match selection pol t t.root (copyGame s) with
  | .error _ => none
  | .ok (f, s₁) =>
    match expansion t f r s₁ with
    | .error _ => none
    | .ok (nid, t₂, _) => parentChain t₂ t₂.nodes.length (some nid)

/-- Reachability along `children` edges: the nodes the agent can still
navigate to from `r` (parent references are not traversal edges). -/
inductive ChildPath (t : MTree) (r : Nat) : Nat → Prop where
  | refl : ChildPath t r r
  | step : ∀ {i nd a c}, ChildPath t r i → getNode t i = some nd →
      (a, c) ∈ nd.children → ChildPath t r c

/-- Every parent reference points to an earlier-allocated node.  Holds
for every tree the agent can build: a child stores the id its parent
had when the child was created. -/
def ParentLt (t : MTree) : Prop :=
  ∀ i nd p, getNode t i = some nd → nd.parent = some p → p < i

/-- Per-node piece of the tree/state correspondence invariant: under
the assignment `σ` of game states to node ids, node `i` is live, both
its action keys and its child ids are duplicate-free, a node with
children has been visited, its state is well formed, and every child
edge carries a legal action of `i`'s state, leads to a later-allocated
live node whose parent reference is `i` and whose trial counter is
positive, and the child's assigned state is the action's successor. -/
def NodeOK (t : MTree) (σ : Nat → Game) (i : Nat) : Prop :=
  ∃ nd, getNode t i = some nd ∧
    (nd.children.map Prod.fst).Nodup ∧
    (nd.children.map Prod.snd).Nodup ∧
    (nd.children ≠ [] → 1 ≤ nd.trials) ∧
    WFGame (σ i) ∧
    ∀ p ∈ nd.children,
      p.1 ∈ legalActions (σ i) ∧
      i < p.2 ∧
      (∃ cd, getNode t p.2 = some cd ∧ cd.parent = some i ∧ 1 ≤ cd.trials) ∧
      takeAct (σ i) p.1 = some (σ p.2)

/-- The whole correspondence invariant between the agent's tree and the
live game state the next search will be called with. -/
def TreeInv (t : MTree) (s : Game) : Prop :=
  ParentLt t ∧ ∃ σ, σ t.root = s ∧ ∀ i, ChildPath t t.root i → NodeOK t σ i

/-- Configurations (tree, live state) reachable by a default-policy
agent run: a fresh agent on a well-formed game, advanced by completed
searches (sequences of successful playouts against the live state) and
by real moves (tree re-root paired with the same action applied to the
live game). -/
inductive ReachCfg : MTree → Game → Prop where
  | init : ∀ s, WFGame s → ReachCfg initTree s
  | play : ∀ t s r rs t', ReachCfg t s → playout uct t s r rs = .ok t' → ReachCfg t' s
  | move : ∀ t s a s', ReachCfg t s → takeAct s a = some s' →
      ReachCfg (treeTakeAction t a) s'

/-- Configurations of an agent with an arbitrary tree policy, carrying
the ghost history of backpropagation passes (one visited-id list per
completed playout). -/
inductive ReachT (pol : Policy) : MTree → Game → List (List Nat) → Prop where
  | init : ∀ s, ReachT pol initTree s []
  | play : ∀ t s r rs t' ch hist, ReachT pol t s hist →
      playout pol t s r rs = .ok t' → playoutChain pol t s r = some ch →
      ReachT pol t' s (hist ++ [ch])
  | move : ∀ t s a s' hist, ReachT pol t s hist → takeAct s a = some s' →
      ReachT pol (treeTakeAction t a) s' hist

/-- How many completed backpropagation passes in the history visited
node `i`. -/
def countVisits (hist : List (List Nat)) (i : Nat) : Nat :=
  (hist.filter (fun ch => decide (i ∈ ch))).length

/-- The tree expansion builds when it attaches a new child under the
frontier `f`: `f`'s children extended by the new edge, the new node
appended at the end of the arena. -/
def addChildTree (t : MTree) (f : Nat) (nd : Node) (a : Nat) (newNd : Node) : MTree :=
  { nodes := t.nodes.set f
      { nd with children := nd.children ++ [(a, t.nodes.length)] } ++ [newNd],
    root := t.root }

/-- Ghost observer: the parent path from the node returned by expansion
to the current root inclusive, on the post-expansion tree: the nodes
the spec says the backpropagation walk covers. -/
def playoutPath (pol : Policy) (t : MTree) (s : Game) (r : Nat) : Option (List Nat) :=
  match selection pol t t.root (copyGame s) with
  | .error _ => none
  | .ok (f, s₁) =>
    match expansion t f r s₁ with
    | .error _ => none
    | .ok (nid, t₂, _) => pathInclRoot t₂ t₂.root t₂.nodes.length nid

/-- Claim C3 as stated: in any reachable playout, backpropagation
updates no pre-existing node outside the parent path from the expansion
node to the current root inclusive. -/
def C3Stated : Prop :=
  ∀ t s r rs t', ReachCfg t s → playout uct t s r rs = .ok t' →
    ∀ p, playoutPath uct t s r = some p →
      ∀ j, j < t.nodes.length → j ∉ p → getNode t' j = getNode t j

/-- Concrete game refuting C3: mover 0 must play 5, then mover 1 must
play 3, then mover 0 has won. -/
def gameC3 : Game :=
  .act 0 [5] (fun _ => .act 1 [3] (fun _ => .fin 0 (some 0)))

/-- `gameC3` after the forced move 5. -/
def stateC3 : Game := .act 1 [3] (fun _ => .fin 0 (some 0))

/-- The tree after one playout of `search` on `gameC3` and a re-root by
the move 5: the new root (node 1) keeps its parent reference to the
detached node 0. -/
def treeC3 : MTree :=
  { nodes := [
      { parent := none, children := [(5, 1)], agent_id := none, wins := 0, trials := 1 },
      { parent := some 0, children := [], agent_id := some 0, wins := 1, trials := 1 }],
    root := 1 }

/-- The tree a further playout on the re-rooted `treeC3` produces: the
detached node 0 got its trials bumped from 1 to 2. -/
def treeC3after : MTree :=
  { nodes := [
      { parent := none, children := [(5, 1)], agent_id := none, wins := 0, trials := 2 },
      { parent := some 0, children := [(3, 2)], agent_id := some 0, wins := 2, trials := 2 },
      { parent := some 1, children := [], agent_id := some 1, wins := 0, trials := 1 }],
    root := 1 }

/-- Concrete two-action game for witnesses: the mover 0 picks 4 (mover
0 wins) or 6 (mover 1 wins), then the game ends. -/
def gameW : Game :=
  .act 0 [4, 6] (fun a => .fin 1 (some (if a = 4 then 0 else 1)))

/-- The tree two playouts of `search` on `gameW` build (oracles pick
the untried actions in order 4 then 6). -/
def treeW : MTree :=
  { nodes := [
      { parent := none, children := [(4, 1), (6, 2)], agent_id := none,
        wins := 0, trials := 2 },
      { parent := some 0, children := [], agent_id := some 0, wins := 1, trials := 1 },
      { parent := some 0, children := [], agent_id := some 0, wins := 0, trials := 1 }],
    root := 0 }

/-- Stateless tree-shape invariant of every tree the agent builds:
each node's child ids are duplicate-free, and every child edge leads to
a later-allocated live node whose parent reference names exactly the
node holding the edge (children are created after their parent, and
parent fields are assigned once, at creation). -/
def TreeWF (t : MTree) : Prop :=
  ∀ i nd, getNode t i = some nd →
    (nd.children.map Prod.snd).Nodup ∧
    ∀ p ∈ nd.children, p.2 < t.nodes.length ∧ i < p.2 ∧
      ∃ cd, getNode t p.2 = some cd ∧ cd.parent = some i

/-- Executable check for `TreeWF`, for concrete trees. -/
def treeWFB (t : MTree) : Bool :=
  t.nodes.enum.all fun q =>
    decide (q.2.children.map Prod.snd).Nodup &&
    q.2.children.all fun p =>
      decide (p.2 < t.nodes.length) && decide (q.1 < p.2) &&
      (match t.nodes[p.2]? with
       | none => false
       | some cd => decide (cd.parent = some q.1))

/-- Executable check for `ParentLt`, for concrete trees. -/
def parentLtB (t : MTree) : Bool :=
  t.nodes.enum.all fun p =>
    match p.2.parent with
    | none => true
    | some q => decide (q < p.1)

/-! Helper lemmas: association-list lookup and CPython `max`. -/

theorem lookup_mem {l : List (Nat × Nat)} {a c : Nat} (h : l.lookup a = some c) :
    (a, c) ∈ l := by
  induction l with
  | nil => simp [List.lookup] at h
  | cons p rest ih =>
    obtain ⟨k, v⟩ := p
    rw [List.lookup] at h
    by_cases hpa : a = k
    · subst hpa
      simp at h
      subst h
      exact List.mem_cons_self _ _
    · rw [beq_false_of_ne hpa] at h
      exact List.mem_cons_of_mem _ (ih h)

theorem lookup_eq_none {l : List (Nat × Nat)} {a : Nat} (h : ∀ p ∈ l, p.1 ≠ a) :
    l.lookup a = none := by
  induction l with
  | nil => rfl
  | cons p rest ih =>
    rw [List.lookup]
    have hne : (a == p.1) = false := beq_false_of_ne fun he => h p (by simp) he.symm
    rw [hne]
    exact ih fun q hq => h q (List.mem_cons_of_mem _ hq)

theorem mem_lookup_of_nodup {l : List (Nat × Nat)} {a c : Nat}
    (hn : (l.map Prod.fst).Nodup) (h : (a, c) ∈ l) : l.lookup a = some c := by
  induction l with
  | nil => simp at h
  | cons p rest ih =>
    rcases List.mem_cons.mp h with he | hm
    · rw [← he, List.lookup]
      simp
    · rw [List.lookup]
      have hne : a ≠ p.1 := by
        intro he
        have : p.1 ∈ rest.map Prod.fst := by
          rw [← he]
          exact List.mem_map_of_mem Prod.fst hm
        rw [List.map_cons] at hn
        exact (List.nodup_cons.mp hn).1 this
      rw [beq_false_of_ne hne]
      exact ih (List.nodup_cons.mp (by rwa [List.map_cons] at hn)).2 hm

theorem lookup_isSome_of_mem {l : List (Nat × Nat)} {a c : Nat} (h : (a, c) ∈ l) :
    (l.lookup a).isSome := by
  induction l with
  | nil => simp at h
  | cons p rest ih =>
    rcases List.mem_cons.mp h with he | hm
    · rw [← he, List.lookup]
      simp
    · rw [List.lookup]
      by_cases hpa : a = p.1
      · simp [hpa]
      · rw [beq_false_of_ne hpa]
        exact ih hm

theorem pymax_foldl_spec {α β : Type} [LinearOrder β] (f : α → β) :
    ∀ (xs : List α) (b : α),
      (xs.foldl (fun u y => if f u < f y then y else u) b = b ∧ ∀ y ∈ xs, f y ≤ f b) ∨
      (∃ (k : Nat) (x : α), xs[k]? = some x ∧
        xs.foldl (fun u y => if f u < f y then y else u) b = x ∧ f b < f x ∧
        (∀ (m : Nat) (y : α), xs[m]? = some y → f y ≤ f x) ∧
        (∀ (m : Nat) (y : α), m < k → xs[m]? = some y → f y < f x)) := by
  intro xs
  induction xs with
  | nil => intro b; left; exact ⟨rfl, by simp⟩
  | cons z zs ih =>
    intro b
    rw [List.foldl_cons]
    by_cases hz : f b < f z
    · rw [if_pos hz]
      rcases ih z with ⟨heq, hall⟩ | ⟨k, x, hk, heq, hbx, hle, hlt⟩
      · right
        refine ⟨0, z, by simp, heq, hz, ?_, ?_⟩
        · intro m y hm
          match m with
          | 0 => simp at hm; rw [← hm]
          | m + 1 =>
            rw [List.getElem?_cons_succ] at hm
            exact hall y (List.getElem?_mem hm)
        · intro m y hm0
          omega
      · right
        refine ⟨k + 1, x, by rwa [List.getElem?_cons_succ], heq, lt_trans hz hbx, ?_, ?_⟩
        · intro m y hm
          match m with
          | 0 => simp at hm; rw [← hm]; exact le_of_lt hbx
          | m + 1 =>
            rw [List.getElem?_cons_succ] at hm
            exact hle m y hm
        · intro m y hmk hm
          match m with
          | 0 => simp at hm; rw [← hm]; exact hbx
          | m + 1 =>
            rw [List.getElem?_cons_succ] at hm
            exact hlt m y (by omega) hm
    · rw [if_neg hz]
      push_neg at hz
      rcases ih b with ⟨heq, hall⟩ | ⟨k, x, hk, heq, hbx, hle, hlt⟩
      · left
        refine ⟨heq, ?_⟩
        intro y hy
        rcases List.mem_cons.mp hy with he | hm
        · rw [he]; exact hz
        · exact hall y hm
      · right
        refine ⟨k + 1, x, by rwa [List.getElem?_cons_succ], heq, hbx, ?_, ?_⟩
        · intro m y hm
          match m with
          | 0 => simp at hm; rw [← hm]; exact le_of_lt (lt_of_le_of_lt hz hbx)
          | m + 1 =>
            rw [List.getElem?_cons_succ] at hm
            exact hle m y hm
        · intro m y hmk hm
          match m with
          | 0 => simp at hm; rw [← hm]; exact lt_of_le_of_lt hz hbx
          | m + 1 =>
            rw [List.getElem?_cons_succ] at hm
            exact hlt m y (by omega) hm

theorem pymax_spec {α β : Type} [LinearOrder β] (f : α → β) (l : List α) (x : α)
    (h : pymax f l = some x) :
    ∃ k : Nat, l[k]? = some x ∧
      (∀ (m : Nat) (y : α), l[m]? = some y → f y ≤ f x) ∧
      (∀ (m : Nat) (y : α), m < k → l[m]? = some y → f y < f x) := by
  match l with
  | [] => simp [pymax] at h
  | z :: zs =>
    rw [pymax, Option.some_inj] at h
    rcases pymax_foldl_spec f zs z with ⟨heq, hall⟩ | ⟨k, x', hk, heq, hbx, hle, hlt⟩
    · have hx : x = z := h.symm.trans heq
      subst hx
      refine ⟨0, by simp, ?_, ?_⟩
      · intro m y hm
        match m with
        | 0 => simp at hm; rw [← hm]
        | m + 1 =>
          rw [List.getElem?_cons_succ] at hm
          exact hall y (List.getElem?_mem hm)
      · intro m y hm0
        omega
    · have hxx : x = x' := by rw [← h, heq]
      subst hxx
      refine ⟨k + 1, by rwa [List.getElem?_cons_succ], ?_, ?_⟩
      · intro m y hm
        match m with
        | 0 => simp at hm; rw [← hm]; exact le_of_lt hbx
        | m + 1 =>
          rw [List.getElem?_cons_succ] at hm
          exact hle m y hm
      · intro m y hmk hm
        match m with
        | 0 => simp at hm; rw [← hm]; exact hbx
        | m + 1 =>
          rw [List.getElem?_cons_succ] at hm
          exact hlt m y (by omega) hm

theorem pymax_mem {α β : Type} [LinearOrder β] (f : α → β) (l : List α) (x : α)
    (h : pymax f l = some x) : x ∈ l := by
  rcases pymax_spec f l x h with ⟨k, hk, _, _⟩
  exact List.getElem?_mem hk

theorem pymax_isSome {α β : Type} [LinearOrder β] (f : α → β) (l : List α)
    (h : l ≠ []) : (pymax f l).isSome := by
  match l with
  | [] => exact absurd rfl h
  | z :: zs => rw [pymax]; rfl

/-! Backpropagation: arena updates, the visited chain, and the exact
effect of one pass. -/

theorem getNode_setNode_ne (t : MTree) (i : Nat) (nd : Node) (j : Nat) (h : j ≠ i) :
    getNode (setNode t i nd) j = getNode t j := by
  simp [getNode, setNode]
  rw [List.getElem?_set_ne (fun he => h he.symm)]

theorem getNode_setNode_self (t : MTree) (i : Nat) (nd : Node)
    (h : (getNode t i).isSome) : getNode (setNode t i nd) i = some nd := by
  have hi : i < t.nodes.length := by
    by_contra hge
    rw [getNode, List.getElem?_eq_none (by omega)] at h
    simp at h
  simp [getNode, setNode, List.getElem?_set_self hi]

theorem setNode_length (t : MTree) (i : Nat) (nd : Node) :
    (setNode t i nd).nodes.length = t.nodes.length := by
  simp [setNode]

theorem parentLt_of_b {t : MTree} (h : parentLtB t = true) : ParentLt t := by
  intro i nd p hnd hp
  have hi : i < t.nodes.length := by
    by_contra hge
    rw [getNode, List.getElem?_eq_none (by omega)] at hnd
    simp at hnd
  rw [parentLtB, List.all_eq_true] at h
  have hmem : (i, nd) ∈ t.nodes.enum := by
    rw [List.mem_enum_iff_getElem?]
    rw [getNode] at hnd
    exact hnd
  have := h (i, nd) hmem
  simp only [hp] at this
  exact of_decide_eq_true this

theorem parentChain_congr (t t' : MTree)
    (h : ∀ j, (getNode t' j).map Node.parent = (getNode t j).map Node.parent) :
    ∀ fuel o, parentChain t' fuel o = parentChain t fuel o := by
  intro fuel
  induction fuel with
  | zero => intro o; cases o <;> rfl
  | succ n ih =>
    intro o
    cases o with
    | none => rfl
    | some i =>
      rw [parentChain, parentChain]
      have hi := h i
      cases ht : getNode t i with
      | none =>
        rw [ht] at hi
        simp only [Option.map_none'] at hi
        rw [Option.map_eq_none'] at hi
        rw [hi]
      | some nd =>
        cases ht' : getNode t' i with
        | none => rw [ht, ht'] at hi; simp at hi
        | some nd' =>
          rw [ht, ht'] at hi
          simp only [Option.map_some', Option.some_inj] at hi
          simp only [ht, ht', hi, ih]

theorem head_mem_of_head? {l : List Nat} {x : Nat} (h : l.head? = some x) : x ∈ l := by
  cases l with
  | nil => simp at h
  | cons z zs =>
    simp at h
    rw [h]
    exact List.mem_cons_self _ _

theorem backprop_run (w : Option Nat) :
    ∀ (fuel i : Nat) (t : MTree), ParentLt t → (getNode t i).isSome → i + 1 ≤ fuel →
      ∃ ch t', backprop w fuel (some i) t = .ok t' ∧
        parentChain t fuel (some i) = some ch ∧
        ch.head? = some i ∧ (∀ j ∈ ch, j ≤ i) ∧ ch.Nodup ∧
        (∀ nd p, getNode t i = some nd → nd.parent = some p → p ∈ ch) ∧
        (∀ j, getNode t' j =
          (getNode t j).map (fun nd => if j ∈ ch then updateNode nd w else nd)) := by
  intro fuel
  induction fuel with
  | zero => intro i t _ _ hf; omega
  | succ n ih =>
    intro i t hP hsome hf
    obtain ⟨nd, hnd⟩ := Option.isSome_iff_exists.mp hsome
    have hlen : i < t.nodes.length := by
      by_contra hge
      rw [getNode, List.getElem?_eq_none (by omega)] at hnd
      simp at hnd
    have ht1some : getNode (setNode t i (updateNode nd w)) i = some (updateNode nd w) :=
      getNode_setNode_self t i _ hsome
    have hcong : ∀ j, (getNode (setNode t i (updateNode nd w)) j).map Node.parent =
        (getNode t j).map Node.parent := by
      intro j
      by_cases hji : j = i
      · subst hji
        rw [ht1some, hnd]
        rfl
      · rw [getNode_setNode_ne t i _ j hji]
    have hP1 : ParentLt (setNode t i (updateNode nd w)) := by
      intro j nd' p hj hp
      by_cases hji : j = i
      · subst hji
        rw [ht1some, Option.some_inj] at hj
        subst hj
        exact hP _ nd p hnd hp
      · rw [getNode_setNode_ne t i _ j hji] at hj
        exact hP j nd' p hj hp
    cases hpar : nd.parent with
    | none =>
      refine ⟨[i], setNode t i (updateNode nd w), ?_, ?_, rfl, ?_, by simp, ?_, ?_⟩
      · simp only [backprop, hnd, hpar]
      · simp only [parentChain, hnd, hpar]
        rfl
      · intro j hj
        simp at hj
        omega
      · intro nd' p hnd' hp
        rw [hnd, Option.some_inj] at hnd'
        subst hnd'
        rw [hpar] at hp
        exact absurd hp (by simp)
      · intro j
        by_cases hji : j = i
        · subst hji
          rw [ht1some, hnd]
          simp
        · rw [getNode_setNode_ne t i _ j hji]
          cases getNode t j <;> simp [hji]
    | some p =>
      have hpi : p < i := hP i nd p hnd hpar
      have hpsome : (getNode (setNode t i (updateNode nd w)) p).isSome := by
        rw [getNode_setNode_ne t i _ p (by omega), getNode]
        rw [List.getElem?_eq_getElem (by omega)]
        rfl
      obtain ⟨ch₀, t', hbp, hchain, hhead, hbound, hnodup, hparent, hform⟩ :=
        ih p (setNode t i (updateNode nd w)) hP1 hpsome (by omega)
      have hb0 : ∀ j ∈ ch₀, j ≤ p := hbound
      refine ⟨i :: ch₀, t', ?_, ?_, rfl, ?_, ?_, ?_, ?_⟩
      · simp only [backprop, hnd, hpar]
        exact hbp
      · simp only [parentChain, hnd, hpar]
        rw [← parentChain_congr _ _ hcong n (some p), hchain]
        rfl
      · intro j hj
        rcases List.mem_cons.mp hj with he | hm
        · omega
        · have := hb0 j hm
          omega
      · rw [List.nodup_cons]
        refine ⟨fun hmem => ?_, hnodup⟩
        have := hb0 i hmem
        omega
      · intro nd' p' hnd' hp'
        rw [hnd, Option.some_inj] at hnd'
        subst hnd'
        rw [hpar, Option.some_inj] at hp'
        subst hp'
        exact List.mem_cons_of_mem _ (head_mem_of_head? hhead)
      · intro j
        by_cases hji : j = i
        · subst hji
          have hnotin : j ∉ ch₀ := fun hmem => by
            have := hb0 j hmem
            omega
          rw [hform j, ht1some, hnd]
          simp [hnotin]
        · rw [hform j, getNode_setNode_ne t i _ j hji]
          cases getNode t j with
          | none => rfl
          | some q =>
            simp only [Option.map_some']
            by_cases hjc : j ∈ ch₀
            · simp [hjc, List.mem_cons, hji]
            · simp [hjc, List.mem_cons, hji]

/-! Decomposition of successful runs, and root preservation. -/

theorem maxTrials_ok {t : MTree} {i a : Nat} (h : maxTrials t i = .ok a) :
    ∃ nd, getNode t i = some nd ∧ ∃ (k : Nat) (c : Nat), nd.children[k]? = some (a, c) ∧
      (∀ (m : Nat) (q : Nat × Nat), nd.children[m]? = some q →
        trialsOf t q.2 ≤ trialsOf t c) ∧
      (∀ (m : Nat) (q : Nat × Nat), m < k → nd.children[m]? = some q →
        trialsOf t q.2 < trialsOf t c) := by
  unfold maxTrials at h
  split at h
  · simp at h
  · rename_i nd hnd
    split at h
    · simp at h
    · rename_i q hq
      rw [Except.ok.injEq] at h
      subst h
      obtain ⟨k, hk, hle, hlt⟩ := pymax_spec _ nd.children q hq
      exact ⟨nd, hnd, k, q.2, hk, fun m q' hm => hle m q' hm,
        fun m q' hmk hm => hlt m q' hmk hm⟩

theorem playout_ok_decomp {pol : Policy} {t : MTree} {s : Game} {r : Nat} {rs : List Nat}
    {t' : MTree} (h : playout pol t s r rs = .ok t') :
    ∃ f s₁ nid t₂ s₂ w, selection pol t t.root (copyGame s) = .ok (f, s₁) ∧
      expansion t f r s₁ = .ok (nid, t₂, s₂) ∧ simulation s₂ rs = .ok w ∧
      backprop w t₂.nodes.length (some nid) t₂ = .ok t' := by
  unfold playout at h
  split at h
  · simp at h
  · rename_i f s₁ hsel
    split at h
    · simp at h
    · rename_i nid t₂ s₂ hexp
      split at h
      · simp at h
      · rename_i w hsim
        exact ⟨f, s₁, nid, t₂, s₂, w, hsel, hexp, hsim, h⟩

theorem search_ok_decomp {pol : Policy} {t : MTree} {s : Game} {rands : List (Nat × List Nat)}
    {a : Nat} {t' : MTree} {s' : Game} (h : search pol t s rands = .ok (a, t', s')) :
    searchGo pol rands t s = .ok t' ∧ maxTrials t' t'.root = .ok a ∧ s' = s := by
  unfold search at h
  split at h
  · simp at h
  · rename_i t₁ hgo
    split at h
    · simp at h
    · rename_i a₁ hmax
      rw [Except.ok.injEq, Prod.mk.injEq, Prod.mk.injEq] at h
      obtain ⟨ha, ht, hs⟩ := h
      subst ha; subst ht; subst hs
      exact ⟨hgo, hmax, rfl⟩

theorem expansion_ok_root {t : MTree} {f r : Nat} {s : Game} {nid : Nat} {t₂ : MTree}
    {s₂ : Game} (h : expansion t f r s = .ok (nid, t₂, s₂)) :
    t₂.root = t.root ∧ t.nodes.length ≤ t₂.nodes.length := by
  unfold expansion at h
  split at h
  · simp at h
  · rename_i nd hnd
    simp only [] at h
    split at h
    · rw [Except.ok.injEq, Prod.mk.injEq, Prod.mk.injEq] at h
      obtain ⟨_, ht, _⟩ := h
      subst ht
      exact ⟨rfl, le_refl _⟩
    · split at h
      · simp at h
      · rename_i a ha
        split at h
        · simp at h
        · rename_i s₃ hs₃
          rw [Except.ok.injEq, Prod.mk.injEq, Prod.mk.injEq] at h
          obtain ⟨_, ht, _⟩ := h
          subst ht
          constructor
          · rfl
          · simp

theorem backprop_ok_root {w : Option Nat} :
    ∀ {fuel : Nat} {o : Option Nat} {t t' : MTree}, backprop w fuel o t = .ok t' →
      t'.root = t.root ∧ t'.nodes.length = t.nodes.length := by
  intro fuel
  induction fuel with
  | zero =>
    intro o t t' h
    cases o with
    | none =>
      rw [backprop, Except.ok.injEq] at h
      subst h
      exact ⟨rfl, rfl⟩
    | some i => simp [backprop] at h
  | succ n ih =>
    intro o t t' h
    cases o with
    | none =>
      rw [backprop, Except.ok.injEq] at h
      subst h
      exact ⟨rfl, rfl⟩
    | some i =>
      rw [backprop] at h
      split at h
      · simp at h
      · rename_i nd hnd
        obtain ⟨hr, hl⟩ := ih h
        refine ⟨hr, ?_⟩
        rw [hl]
        exact setNode_length t i _

theorem playout_ok_root {pol : Policy} {t : MTree} {s : Game} {r : Nat} {rs : List Nat}
    {t' : MTree} (h : playout pol t s r rs = .ok t') :
    t'.root = t.root ∧ t.nodes.length ≤ t'.nodes.length := by
  obtain ⟨f, s₁, nid, t₂, s₂, w, _, hexp, _, hbp⟩ := playout_ok_decomp h
  obtain ⟨he, hel⟩ := expansion_ok_root hexp
  obtain ⟨hbr, hbl⟩ := backprop_ok_root hbp
  exact ⟨hbr.trans he, le_trans hel (le_of_eq hbl.symm)⟩

theorem searchGo_ok_root {pol : Policy} :
    ∀ {rands : List (Nat × List Nat)} {t t' : MTree} {s : Game},
      searchGo pol rands t s = .ok t' →
      t'.root = t.root ∧ t.nodes.length ≤ t'.nodes.length := by
  intro rands
  induction rands with
  | nil =>
    intro t t' s h
    rw [searchGo, Except.ok.injEq] at h
    subst h
    exact ⟨rfl, le_refl _⟩
  | cons rr rest ih =>
    intro t t' s h
    obtain ⟨r, rs⟩ := rr
    rw [searchGo] at h
    split at h
    · simp at h
    · rename_i t₁ hp
      obtain ⟨h1r, h1l⟩ := playout_ok_root hp
      obtain ⟨h2r, h2l⟩ := ih h
      exact ⟨h2r.trans h1r, le_trans h1l h2l⟩

/-! Claim C1, C9, C10 theorems. -/

/-- C1: every completed `search` call returns an action that is a key of
the root's children mapping whose child has the maximum trials count
among all the root's children, and on ties it is the first-encountered
key in the mapping's enumeration (insertion) order, hence deterministic
for a fixed insertion history. -/
theorem c1_search_returns_first_max_trials_child {pol : Policy} {t : MTree} {s : Game}
    {rands : List (Nat × List Nat)} {a : Nat} {t' : MTree} {s' : Game}
    (h : search pol t s rands = .ok (a, t', s')) :
    t'.root = t.root ∧
    ∃ nd, getNode t' t'.root = some nd ∧ nd.children ≠ [] ∧
      ∃ (k : Nat) (c : Nat), nd.children[k]? = some (a, c) ∧
        (∀ (m : Nat) (q : Nat × Nat), nd.children[m]? = some q →
          trialsOf t' q.2 ≤ trialsOf t' c) ∧
        (∀ (m : Nat) (q : Nat × Nat), m < k → nd.children[m]? = some q →
          trialsOf t' q.2 < trialsOf t' c) := by
  obtain ⟨hgo, hmax, _⟩ := search_ok_decomp h
  obtain ⟨hroot, _⟩ := searchGo_ok_root hgo
  obtain ⟨nd, hnd, k, c, hk, hle, hlt⟩ := maxTrials_ok hmax
  refine ⟨hroot, nd, hnd, ?_, k, c, hk, hle, hlt⟩
  intro hnil
  rw [hnil] at hk
  simp at hk

/-- Witness for C1: a two-playout search on the concrete game `gameW`
returns action 4, the first-inserted of the two equally-tried root
children. -/
theorem c1_witness :
    (search uct initTree gameW [(0, [0]), (0, [0])] = .ok (4, treeW, gameW)) ∧
    (treeW.root = initTree.root ∧
      ∃ nd, getNode treeW treeW.root = some nd ∧ nd.children ≠ [] ∧
        ∃ (k : Nat) (c : Nat), nd.children[k]? = some (4, c) ∧
          (∀ (m : Nat) (q : Nat × Nat), nd.children[m]? = some q →
            trialsOf treeW q.2 ≤ trialsOf treeW c) ∧
          (∀ (m : Nat) (q : Nat × Nat), m < k → nd.children[m]? = some q →
            trialsOf treeW q.2 < trialsOf treeW c)) :=
  ⟨by rfl, @c1_search_returns_first_max_trials_child uct initTree gameW
    [(0, [0]), (0, [0])] 4 treeW gameW (by rfl)⟩

/-- C9: the claim asks that a search that completes zero playouts return
a well-defined best-of-zero-trial-children action or a documented
empty-budget error.  The code does neither on a fresh tree: with no
playouts the root has no children and `max_trials` raises an uncaught
ValueError (`max()` over an empty mapping).  This theorem evaluates the
embedding at the failing input. -/
theorem c9_zero_playouts_raise_value_error :
    search uct initTree (Game.act 0 [1, 2] (fun _ => Game.fin 1 none)) [] =
      .error .ValueErr := by rfl

/-- C10: a `search` call never mutates the caller's state argument:
every playout works on a copy, and at return the caller's state is
unchanged in all observable fields (legal actions, current mover,
terminality, winner). -/
theorem c10_caller_state_unchanged {pol : Policy} {t : MTree} {s : Game}
    {rands : List (Nat × List Nat)} {a : Nat} {t' : MTree} {s' : Game}
    (h : search pol t s rands = .ok (a, t', s')) :
    s' = s ∧ legalActions s' = legalActions s ∧ curOf s' = curOf s ∧
      isTerminal s' = isTerminal s ∧ winnerOf s' = winnerOf s := by
  obtain ⟨_, _, hs⟩ := search_ok_decomp h
  subst hs
  exact ⟨rfl, rfl, rfl, rfl, rfl⟩

/-- Witness for C10: the concrete two-playout search on `gameW` hands
back the caller's state observably unchanged. -/
theorem c10_witness :
    (search uct initTree gameW [(0, [0]), (0, [0])] = .ok (4, treeW, gameW)) ∧
    (gameW = gameW ∧ legalActions gameW = legalActions gameW ∧
      curOf gameW = curOf gameW ∧ isTerminal gameW = isTerminal gameW ∧
      winnerOf gameW = winnerOf gameW) :=
  ⟨by rfl, @c10_caller_state_unchanged uct initTree gameW
    [(0, [0]), (0, [0])] 4 treeW gameW (by rfl)⟩

/-! Claim C6: expansion. -/

/-- C6: when the frontier node has an untried legal action, expansion
creates exactly one new node (parent = frontier, actor = the mover of
the current working state, zero statistics), attaches it under one such
untried action, advances the working state by that action and returns
the new node; with no untried action it returns the frontier with tree
and state untouched. -/
theorem c6_expansion {t : MTree} {i r : Nat} {s : Game} {nd : Node}
    (hnd : getNode t i = some nd) :
    (((legalActions s).filter (fun a => (nd.children.lookup a).isNone) = []) →
      expansion t i r s = .ok (i, t, s)) ∧
    (((legalActions s).filter (fun a => (nd.children.lookup a).isNone) ≠ []) →
      ∃ a t₂ s', expansion t i r s = .ok (t.nodes.length, t₂, s') ∧
        a ∈ legalActions s ∧ nd.children.lookup a = none ∧ takeAct s a = some s' ∧
        t₂.root = t.root ∧ t₂.nodes.length = t.nodes.length + 1 ∧
        getNode t₂ t.nodes.length = some
          { parent := some i, children := [], agent_id := some (curOf s),
            wins := 0, trials := 0 } ∧
        (∃ nd₂, getNode t₂ i = some nd₂ ∧
          nd₂.children = nd.children ++ [(a, t.nodes.length)] ∧
          nd₂.parent = nd.parent ∧ nd₂.agent_id = nd.agent_id ∧
          nd₂.wins = nd.wins ∧ nd₂.trials = nd.trials) ∧
        (∀ j, j ≠ i → getNode t₂ j = getNode t j ∨ j = t.nodes.length)) := by
  have hilen : i < t.nodes.length := by
    by_contra hge
    rw [getNode, List.getElem?_eq_none (by omega)] at hnd
    simp at hnd
  constructor
  · intro hp
    unfold expansion
    rw [hnd]
    simp only []
    rw [if_pos hp]
  · intro hp
    have hlenpos : 0 < ((legalActions s).filter
        (fun a => (nd.children.lookup a).isNone)).length :=
      List.length_pos.mpr hp
    have hidx : r % ((legalActions s).filter
        (fun a => (nd.children.lookup a).isNone)).length <
        ((legalActions s).filter (fun a => (nd.children.lookup a).isNone)).length :=
      Nat.mod_lt _ hlenpos
    set possible := (legalActions s).filter (fun a => (nd.children.lookup a).isNone)
      with hposs
    obtain ⟨a, ha⟩ : ∃ a, possible[r % possible.length]? = some a :=
      ⟨possible.get ⟨r % possible.length, hidx⟩, List.getElem?_eq_getElem hidx⟩
    have hamem : a ∈ possible := List.getElem?_mem ha
    rw [hposs, List.mem_filter] at hamem
    obtain ⟨haleg, hanone⟩ := hamem
    have hanone' : nd.children.lookup a = none := by
      rwa [Option.isNone_iff_eq_none] at hanone
    have hsact : ∃ s', takeAct s a = some s' := by
      cases s with
      | fin c w => rw [legalActions] at haleg; simp at haleg
      | act c legal next =>
        rw [legalActions] at haleg
        rw [takeAct, if_pos haleg]
        exact ⟨next a, rfl⟩
    obtain ⟨s', hs'⟩ := hsact
    refine ⟨a,
      { nodes := t.nodes.set i
          { nd with children := nd.children ++ [(a, t.nodes.length)] } ++
          [{ parent := some i, children := [], agent_id := some (curOf s),
             wins := 0, trials := 0 }],
        root := t.root },
      s', ?_, haleg, hanone', hs', rfl, ?_, ?_, ?_, ?_⟩
    · unfold expansion
      rw [hnd]
      simp only []
      rw [if_neg hp, ← hposs]
      simp only [ha, hs']
    · simp
    · simp only [getNode]
      rw [List.getElem?_append, if_neg (by simp)]
      rw [List.length_set]
      simp
    · refine ⟨{ nd with children := nd.children ++ [(a, t.nodes.length)] },
        ?_, rfl, rfl, rfl, rfl, rfl⟩
      simp only [getNode]
      rw [List.getElem?_append, if_pos (by simp only [List.length_set]; omega)]
      rw [List.getElem?_set_self hilen]
    · intro j hji
      by_cases hjl : j < t.nodes.length
      · left
        simp only [getNode]
        rw [List.getElem?_append, if_pos (by simp only [List.length_set]; omega)]
        rw [List.getElem?_set_ne (fun he => hji he.symm)]
      · by_cases hje : j = t.nodes.length
        · right; exact hje
        · left
          have hL : (t.nodes.set i
              { nd with children := nd.children ++ [(a, t.nodes.length)] } ++
              [{ parent := some i, children := [], agent_id := some (curOf s),
                 wins := 0, trials := 0 }])[j]? = (none : Option Node) := by
            apply List.getElem?_eq_none
            simp only [List.length_append, List.length_set, List.length_cons,
              List.length_nil]
            omega
          have hR : t.nodes[j]? = (none : Option Node) :=
            List.getElem?_eq_none (by omega)
          simp only [getNode]
          rw [hL, hR]

/-- Witness for C6: expansion at the fresh root of `gameW` (both legal
actions untried) creates the one new child node. -/
theorem c6_witness :
    (getNode initTree 0 = some freshNode) ∧
    ((((legalActions gameW).filter
        (fun a => (freshNode.children.lookup a).isNone) = []) →
      expansion initTree 0 0 gameW = .ok (0, initTree, gameW)) ∧
    (((legalActions gameW).filter
        (fun a => (freshNode.children.lookup a).isNone) ≠ []) →
      ∃ a t₂ s', expansion initTree 0 0 gameW = .ok (initTree.nodes.length, t₂, s') ∧
        a ∈ legalActions gameW ∧ freshNode.children.lookup a = none ∧
        takeAct gameW a = some s' ∧
        t₂.root = initTree.root ∧ t₂.nodes.length = initTree.nodes.length + 1 ∧
        getNode t₂ initTree.nodes.length = some
          { parent := some 0, children := [], agent_id := some (curOf gameW),
            wins := 0, trials := 0 } ∧
        (∃ nd₂, getNode t₂ 0 = some nd₂ ∧
          nd₂.children = freshNode.children ++ [(a, initTree.nodes.length)] ∧
          nd₂.parent = freshNode.parent ∧ nd₂.agent_id = freshNode.agent_id ∧
          nd₂.wins = freshNode.wins ∧ nd₂.trials = freshNode.trials) ∧
        (∀ j, j ≠ 0 → getNode t₂ j = getNode initTree j ∨ j = initTree.nodes.length))) :=
  ⟨rfl, @c6_expansion initTree 0 0 gameW freshNode rfl⟩

/-! Claims C3 and C5: what backpropagation really updates. -/

theorem wf_gameC3 : WFGame gameC3 := by
  refine WFGame.act _ _ _ (by simp) (by simp) ?_
  intro a ha
  refine WFGame.act _ _ _ (by simp) (by simp) ?_
  intro b hb
  exact WFGame.fin _ _

theorem parentChain_parent_none_last (t : MTree) :
    ∀ (fuel : Nat) (o : Option Nat) (ch : List Nat), parentChain t fuel o = some ch →
      ∀ j nd, j ∈ ch → getNode t j = some nd → nd.parent = none →
        ch.getLast? = some j := by
  intro fuel
  induction fuel with
  | zero =>
    intro o ch h j nd hj hnd hpar
    cases o with
    | none =>
      rw [parentChain, Option.some_inj] at h
      subst h
      simp at hj
    | some i => simp [parentChain] at h
  | succ n ih =>
    intro o ch h j nd hj hnd hpar
    cases o with
    | none =>
      rw [parentChain, Option.some_inj] at h
      subst h
      simp at hj
    | some i =>
      rw [parentChain] at h
      cases hndi : getNode t i with
      | none => rw [hndi] at h; simp at h
      | some ndi =>
        rw [hndi] at h
        simp only [Option.map_eq_some'] at h
        obtain ⟨l, hl, hch⟩ := h
        subst hch
        rcases List.mem_cons.mp hj with he | hm
        · subst he
          rw [hndi, Option.some_inj] at hnd
          subst hnd
          rw [hpar, parentChain, Option.some_inj] at hl
          subst hl
          rfl
        · have hlast := ih _ l hl j nd hm hnd hpar
          cases l with
          | nil => simp at hm
          | cons x xs =>
            rw [List.getLast?_cons_cons]
            exact hlast

/-- C3 (amended): backpropagation from the node returned by expansion
updates exactly the nodes of the full parent chain (one `update_node`
visit each: trials + 1, wins + 1 on actor match), leaving every other
node untouched; the walk stops at the first node with an absent parent
reference, which is the last chain element — it coincides with the
current root only when the current root's parent is absent, and after
a re-root onto an existing child the walk continues past the root. -/
theorem c3_amended_backprop_walks_full_parent_chain {t : MTree} {start : Nat}
    {w : Option Nat} {fuel : Nat} (hP : ParentLt t) (hs : (getNode t start).isSome)
    (hf : start + 1 ≤ fuel) :
    ∃ ch t', backprop w fuel (some start) t = .ok t' ∧
      parentChain t fuel (some start) = some ch ∧ ch.head? = some start ∧
      (∀ j, getNode t' j = (getNode t j).map
        (fun nd => if j ∈ ch then updateNode nd w else nd)) ∧
      (∀ j nd, j ∈ ch → getNode t j = some nd → nd.parent = none →
        ch.getLast? = some j) := by
  obtain ⟨ch, t', hbp, hchain, hhead, _, _, _, hform⟩ :=
    backprop_run w fuel start t hP hs hf
  exact ⟨ch, t', hbp, hchain, hhead, hform, fun j nd hj hnd hpar =>
    parentChain_parent_none_last t fuel (some start) ch hchain j nd hj hnd hpar⟩

/-- Witness for the amended C3: on the re-rooted `treeC3`, the pass
from the root (node 1) walks the chain [1, 0], updates exactly those
two nodes, and ends at the parentless detached node 0, not at the
current root. -/
theorem c3_amended_witness :
    (parentLtB treeC3 = true ∧ (getNode treeC3 1).isSome ∧ 1 + 1 ≤ 2) ∧
    (∃ ch t', backprop (some 0) 2 (some 1) treeC3 = .ok t' ∧
      parentChain treeC3 2 (some 1) = some ch ∧ ch.head? = some 1 ∧
      (∀ j, getNode t' j = (getNode treeC3 j).map
        (fun nd => if j ∈ ch then updateNode nd (some 0) else nd)) ∧
      (∀ j nd, j ∈ ch → getNode treeC3 j = some nd → nd.parent = none →
        ch.getLast? = some j)) :=
  ⟨⟨by decide, by decide, by decide⟩,
    @c3_amended_backprop_walks_full_parent_chain treeC3 1 (some 0) 2
      (parentLt_of_b (by decide)) (by decide) (by decide)⟩

/-- C3 counterexample: the claim as stated — backpropagation updates no
pre-existing node outside the path from the expansion node to the
current root — fails on a reachable configuration: after re-rooting,
the pass from expansion node 2 covers the path [2, 1] to the current
root but also updates the detached node 0. -/
theorem c3_counterexample : ¬ C3Stated := by
  intro h
  have h1 : ReachCfg { nodes := treeC3.nodes, root := 0 } gameC3 :=
    ReachCfg.play initTree gameC3 0 [0] { nodes := treeC3.nodes, root := 0 }
      (ReachCfg.init gameC3 wf_gameC3) (by rfl)
  have h2 : ReachCfg treeC3 stateC3 :=
    ReachCfg.move { nodes := treeC3.nodes, root := 0 } gameC3 5 stateC3 h1 (by rfl)
  have h3 := h treeC3 stateC3 0 [0] treeC3after h2 (by rfl) [2, 1] (by rfl) 0
    (by decide) (by decide)
  exact absurd h3 (by decide)

/-- C5: after `_take_action` re-roots onto an existing child, the new
root's parent reference is not cleared — it still names the detached
old parent — so a subsequent backpropagation pass started at (or below)
the new root walks past it: the detached former parent is on the
visited chain and its trials counter is incremented too. -/
theorem c5_reroot_keeps_parent_backprop_walks_past {t : MTree} {a cid pid : Nat}
    {cd : Node} (hroot : (getNode t t.root).bind (fun nd => nd.children.lookup a) = some cid)
    (hcd : getNode t cid = some cd) (hpar : cd.parent = some pid)
    (hP : ParentLt t) {w : Option Nat} {fuel : Nat} (hf : cid + 1 ≤ fuel) :
    treeTakeAction t a = { nodes := t.nodes, root := cid } ∧
    (∃ cd', getNode (treeTakeAction t a) cid = some cd' ∧ cd'.parent = some pid) ∧
    (∃ ch t', backprop w fuel (some cid) (treeTakeAction t a) = .ok t' ∧
      parentChain (treeTakeAction t a) fuel (some cid) = some ch ∧
      ch.head? = some cid ∧ pid ∈ ch ∧
      trialsOf t' pid = trialsOf t pid + 1) := by
  have htta : treeTakeAction t a = { nodes := t.nodes, root := cid } := by
    unfold treeTakeAction
    rw [hroot]
  have hget : ∀ j, getNode (treeTakeAction t a) j = getNode t j := by
    intro j
    rw [htta]
    rfl
  have hP' : ParentLt (treeTakeAction t a) := by
    intro i nd p hnd hp
    rw [hget] at hnd
    exact hP i nd p hnd hp
  have hcd' : getNode (treeTakeAction t a) cid = some cd := by rw [hget]; exact hcd
  obtain ⟨ch, t', hbp, hchain, hhead, _, _, hpmem, hform⟩ :=
    backprop_run w fuel cid (treeTakeAction t a) hP'
      (by rw [hcd']; rfl) hf
  have hpid : pid ∈ ch := hpmem cd pid hcd' hpar
  refine ⟨htta, ⟨cd, hcd', hpar⟩, ch, t', hbp, hchain, hhead, hpid, ?_⟩
  have hpids : (getNode t pid).isSome := by
    have hplt : pid < cid := hP cid cd pid hcd hpar
    have hcl : cid < t.nodes.length := by
      by_contra hge
      rw [getNode, List.getElem?_eq_none (by omega)] at hcd
      simp at hcd
    rw [getNode, List.getElem?_eq_getElem (by omega)]
    rfl
  obtain ⟨pn, hpn⟩ := Option.isSome_iff_exists.mp hpids
  have := hform pid
  rw [hget pid, hpn] at this
  rw [trialsOf, trialsOf, this, hpn]
  simp [hpid, updateNode]

/-- Witness for C5: `treeC3` just after its re-root (root 1, parent
still 0): the backprop pass from the new root bumps the detached node
0's trials from 1 to 2. -/
theorem c5_witness :
    ((getNode { nodes := treeC3.nodes, root := 0 } 0).bind
        (fun nd => nd.children.lookup 5) = some 1 ∧
      getNode { nodes := treeC3.nodes, root := 0 } 1 =
        some { parent := some 0, children := [], agent_id := some 0,
               wins := 1, trials := 1 } ∧
      parentLtB { nodes := treeC3.nodes, root := (0 : Nat) } = true ∧ 1 + 1 ≤ 2) ∧
    (treeTakeAction { nodes := treeC3.nodes, root := 0 } 5 =
        { nodes := treeC3.nodes, root := 1 } ∧
    (∃ cd', getNode (treeTakeAction { nodes := treeC3.nodes, root := 0 } 5) 1 =
        some cd' ∧ cd'.parent = some 0) ∧
    (∃ ch t', backprop (some 0) 2
        (some 1) (treeTakeAction { nodes := treeC3.nodes, root := 0 } 5) = .ok t' ∧
      parentChain (treeTakeAction { nodes := treeC3.nodes, root := 0 } 5) 2
        (some 1) = some ch ∧
      ch.head? = some 1 ∧ 0 ∈ ch ∧
      trialsOf t' 0 = trialsOf { nodes := treeC3.nodes, root := 0 } 0 + 1)) :=
  ⟨⟨by decide, by decide, by decide, by decide⟩,
    @c5_reroot_keeps_parent_backprop_walks_past
      { nodes := treeC3.nodes, root := 0 } 5 1 0
      { parent := some 0, children := [], agent_id := some 0, wins := 1, trials := 1 }
      (by decide) (by decide) (by decide) (parentLt_of_b (by decide)) (some 0) 2
      (by decide)⟩

/-! Claim C4: re-rooting. -/

theorem treeWF_of_b {t : MTree} (h : treeWFB t = true) : TreeWF t := by
  intro i nd hnd
  rw [treeWFB, List.all_eq_true] at h
  have hmem : (i, nd) ∈ t.nodes.enum := by
    rw [List.mem_enum_iff_getElem?]
    rw [getNode] at hnd
    exact hnd
  have hq := h (i, nd) hmem
  rw [Bool.and_eq_true] at hq
  obtain ⟨hnodup, hall⟩ := hq
  refine ⟨of_decide_eq_true hnodup, ?_⟩
  intro p hp
  rw [List.all_eq_true] at hall
  have hp' := hall p hp
  rw [Bool.and_eq_true, Bool.and_eq_true] at hp'
  obtain ⟨⟨h1, h2⟩, h3⟩ := hp'
  refine ⟨of_decide_eq_true h1, of_decide_eq_true h2, ?_⟩
  cases hcd : t.nodes[p.2]? with
  | none => rw [hcd] at h3; simp at h3
  | some cd =>
    rw [hcd] at h3
    exact ⟨cd, hcd, of_decide_eq_true h3⟩

theorem childPath_of_nodes_eq {t t' : MTree} (h : t'.nodes = t.nodes) {c j : Nat}
    (hp : ChildPath t c j) : ChildPath t' c j := by
  induction hp with
  | refl => exact .refl
  | step hp hnd hmem ih =>
    exact .step ih (show getNode t' _ = _ by rw [getNode, h]; exact hnd) hmem

theorem childPath_le {t : MTree} (hWF : TreeWF t) {c j : Nat}
    (hp : ChildPath t c j) : c ≤ j := by
  induction hp with
  | refl => exact le_refl _
  | step hp hnd hmem ih =>
    rename_i i nd a c' 
    have := ((hWF i nd hnd).2 (a, c') hmem).2.1
    omega

theorem childPath_parent_step {t : MTree} (hWF : TreeWF t) {c j : Nat}
    (hp : ChildPath t c j) :
    j = c ∨ ∃ q qd, getNode t j = some qd ∧ qd.parent = some q ∧
      ChildPath t c q ∧ q < j := by
  induction hp with
  | refl => exact Or.inl rfl
  | step hp hnd hmem ih =>
    rename_i i nd a c'
    right
    obtain ⟨cd, hcd, hcpar⟩ := ((hWF i nd hnd).2 (a, c') hmem).2.2
    have hlt := ((hWF i nd hnd).2 (a, c') hmem).2.1
    exact ⟨i, cd, hcd, hcpar, hp, hlt⟩

theorem childPath_disjoint {t : MTree} (hWF : TreeWF t) {rt : Nat} {rd : Node}
    (hrd : getNode t rt = some rd) {a₁ a₂ c₁ c₂ : Nat}
    (h1 : (a₁, c₁) ∈ rd.children) (h2 : (a₂, c₂) ∈ rd.children) (hne : c₁ ≠ c₂) :
    ∀ j, ChildPath t c₁ j → ¬ ChildPath t c₂ j := by
  intro j
  induction j using Nat.strong_induction_on with
  | _ j ih =>
    intro hp1 hp2
    have hrt1 : rt < c₁ := ((hWF rt rd hrd).2 (a₁, c₁) h1).2.1
    have hrt2 : rt < c₂ := ((hWF rt rd hrd).2 (a₂, c₂) h2).2.1
    obtain ⟨cd₁, hcd₁, hp₁⟩ := ((hWF rt rd hrd).2 (a₁, c₁) h1).2.2
    obtain ⟨cd₂, hcd₂, hp₂⟩ := ((hWF rt rd hrd).2 (a₂, c₂) h2).2.2
    rcases childPath_parent_step hWF hp1 with he1 | ⟨q₁, qd₁, hqd₁, hqp₁, hcp₁, hql₁⟩
    · subst he1
      rcases childPath_parent_step hWF hp2 with he2 | ⟨q₂, qd₂, hqd₂, hqp₂, hcp₂, hql₂⟩
      · exact hne he2
      · rw [hqd₂, Option.some_inj] at hcd₁
        subst hcd₁
        rw [hp₁, Option.some_inj] at hqp₂
        subst hqp₂
        have := childPath_le hWF hcp₂
        omega
    · rcases childPath_parent_step hWF hp2 with he2 | ⟨q₂, qd₂, hqd₂, hqp₂, hcp₂, hql₂⟩
      · subst he2
        rw [hqd₁, Option.some_inj] at hcd₂
        subst hcd₂
        rw [hp₂, Option.some_inj] at hqp₁
        subst hqp₁
        have := childPath_le hWF hcp₁
        omega
      · rw [hqd₂, Option.some_inj] at hqd₁
        subst hqd₁
        rw [hqp₂, Option.some_inj] at hqp₁
        subst hqp₁
        exact ih q₂ hql₂ hcp₁ hcp₂

/-- C4: re-rooting by an action with a corresponding child makes that
child the root and preserves every node (so the whole subtree's wins,
trials and children) exactly, while the sibling branches and the old
root become unreachable along children edges; re-rooting by an action
with no child yields a single fresh root with zero trials, no children
and no parent. -/
theorem c4_reroot_preserves_subtree_detaches_rest {t : MTree} {a : Nat}
    (hWF : TreeWF t) :
    (∀ cid, (getNode t t.root).bind (fun nd => nd.children.lookup a) = some cid →
      treeTakeAction t a = { nodes := t.nodes, root := cid } ∧
      (∀ j, getNode (treeTakeAction t a) j = getNode t j) ∧
      (∀ rd, getNode t t.root = some rd →
        ∀ a' c', (a', c') ∈ rd.children → c' ≠ cid →
          ∀ j, ChildPath t c' j → ¬ ChildPath (treeTakeAction t a) cid j) ∧
      ¬ ChildPath (treeTakeAction t a) cid t.root) ∧
    ((getNode t t.root).bind (fun nd => nd.children.lookup a) = none →
      treeTakeAction t a =
        { nodes := t.nodes ++ [freshNode], root := t.nodes.length } ∧
      getNode (treeTakeAction t a) (treeTakeAction t a).root = some freshNode ∧
      freshNode.trials = 0 ∧ freshNode.children = [] ∧ freshNode.parent = none ∧
      (∀ j, ChildPath (treeTakeAction t a) t.nodes.length j →
        j = t.nodes.length)) := by
  constructor
  · intro cid hcid
    have htta : treeTakeAction t a = { nodes := t.nodes, root := cid } := by
      unfold treeTakeAction
      rw [hcid]
    have hget : ∀ j, getNode (treeTakeAction t a) j = getNode t j := by
      intro j
      rw [htta]
      rfl
    obtain ⟨rd, hrd⟩ : ∃ rd, getNode t t.root = some rd := by
      cases hr : getNode t t.root with
      | none => rw [hr] at hcid; simp at hcid
      | some rd => exact ⟨rd, rfl⟩
    have hmem : (a, cid) ∈ rd.children := by
      rw [hrd] at hcid
      rw [Option.some_bind] at hcid
      exact lookup_mem hcid
    refine ⟨htta, hget, ?_, ?_⟩
    · intro rd' hrd' a' c' hmem' hne j hpath hpath'
      rw [hrd, Option.some_inj] at hrd'
      subst hrd'
      have hpath'' : ChildPath t cid j := by
        exact @childPath_of_nodes_eq (treeTakeAction t a) t
          (show t.nodes = (treeTakeAction t a).nodes by rw [htta]) cid j hpath'
      exact childPath_disjoint hWF hrd hmem' hmem hne j hpath hpath''
    · intro hpath
      have hpath' : ChildPath t cid t.root :=
        childPath_of_nodes_eq (show t.nodes = (treeTakeAction t a).nodes by rw [htta]) hpath
      have hle := childPath_le hWF hpath'
      have hlt : t.root < cid := ((hWF t.root rd hrd).2 (a, cid) hmem).2.1
      omega
  · intro hnone
    have htta : treeTakeAction t a =
        { nodes := t.nodes ++ [freshNode], root := t.nodes.length } := by
      unfold treeTakeAction
      rw [hnone]
    have hfresh : getNode (treeTakeAction t a) t.nodes.length = some freshNode := by
      rw [htta]
      show (t.nodes ++ [freshNode])[t.nodes.length]? = some freshNode
      rw [List.getElem?_append, if_neg (by omega)]
      simp
    refine ⟨htta, ?_, rfl, rfl, rfl, ?_⟩
    · rw [show (treeTakeAction t a).root = t.nodes.length by rw [htta]]
      exact hfresh
    · intro j hpath
      induction hpath with
      | refl => rfl
      | step hp hnd hmem ih =>
        rename_i i nd a' c'
        rw [ih] at hnd
        rw [hfresh, Option.some_inj] at hnd
        subst hnd
        simp [freshNode] at hmem

/-- Witness for C4: the two-child tree `treeW`; advancing by action 4
keeps node 1's subtree and detaches the sibling child 2 and the old
root; advancing by the unexplored action 9 resets to a fresh root. -/
theorem c4_witness :
    (treeWFB treeW = true) ∧
    ((∀ cid, (getNode treeW treeW.root).bind
        (fun nd => nd.children.lookup 4) = some cid →
      treeTakeAction treeW 4 = { nodes := treeW.nodes, root := cid } ∧
      (∀ j, getNode (treeTakeAction treeW 4) j = getNode treeW j) ∧
      (∀ rd, getNode treeW treeW.root = some rd →
        ∀ a' c', (a', c') ∈ rd.children → c' ≠ cid →
          ∀ j, ChildPath treeW c' j → ¬ ChildPath (treeTakeAction treeW 4) cid j) ∧
      ¬ ChildPath (treeTakeAction treeW 4) cid treeW.root) ∧
    ((getNode treeW treeW.root).bind (fun nd => nd.children.lookup 4) = none →
      treeTakeAction treeW 4 =
        { nodes := treeW.nodes ++ [freshNode], root := treeW.nodes.length } ∧
      getNode (treeTakeAction treeW 4) (treeTakeAction treeW 4).root =
        some freshNode ∧
      freshNode.trials = 0 ∧ freshNode.children = [] ∧ freshNode.parent = none ∧
      (∀ j, ChildPath (treeTakeAction treeW 4) treeW.nodes.length j →
        j = treeW.nodes.length))) :=
  ⟨by decide, @c4_reroot_preserves_subtree_detaches_rest treeW 4
    (treeWF_of_b (by decide))⟩

/-! Claim C2: the UCT tree policy. -/

theorem uctBuild_ok {t : MTree} {nd : Node} (hT : nd.trials ≠ 0) :
    ∀ l : List Nat,
      (∀ a ∈ l, ∃ c cd, nd.children.lookup a = some c ∧ getNode t c = some cd ∧
        cd.trials ≠ 0) →
      ∃ scores, uctBuild t nd l = .ok scores ∧ scores.map Prod.fst = l ∧
        (∀ (m : Nat) (q : Nat × ℝ), scores[m]? = some q →
          q.2 = scoreOf t nd q.1) := by
  intro l
  induction l with
  | nil => intro _; exact ⟨[], rfl, rfl, by intro m q hm; simp at hm⟩
  | cons a as ih =>
    intro hch
    obtain ⟨c, cd, hc, hcd, hct⟩ := hch a (List.mem_cons_self a as)
    obtain ⟨scores, hsc, hfst, hval⟩ := ih fun b hb => hch b (List.mem_cons_of_mem _ hb)
    refine ⟨(a, uctScore nd cd) :: scores, ?_, by rw [List.map_cons, hfst], ?_⟩
    · simp only [uctBuild, hc, hcd, hsc]
      rw [if_neg hct, if_neg hT]
    · intro m q hm
      match m with
      | 0 =>
        simp at hm
        rw [← hm]
        show uctScore nd cd = scoreOf t nd a
        simp only [scoreOf, hc, hcd]
      | m + 1 =>
        rw [List.getElem?_cons_succ] at hm
        exact hval m q hm

/-- C2: on a node whose every legal action has a visited child and that
has itself been visited, the UCT policy returns the action maximising
wins/trials + sqrt 2 * sqrt (ln (node trials) / child trials) over the
legal-action list, breaking ties in favour of the first action of the
enumeration attaining the maximum. -/
theorem c2_uct_first_argmax {t : MTree} {i : Nat} {s : Game} {nd : Node}
    (hnd : getNode t i = some nd) (hT : nd.trials ≠ 0)
    (hA : legalActions s ≠ []) 
    (hch : ∀ a ∈ legalActions s, ∃ c cd, nd.children.lookup a = some c ∧
      getNode t c = some cd ∧ cd.trials ≠ 0) :
    ∃ a, uct t i s = .ok a ∧ ∃ k : Nat, (legalActions s)[k]? = some a ∧
      (∀ (m : Nat) (b : Nat), (legalActions s)[m]? = some b →
        scoreOf t nd b ≤ scoreOf t nd a) ∧
      (∀ (m : Nat) (b : Nat), m < k → (legalActions s)[m]? = some b →
        scoreOf t nd b < scoreOf t nd a) := by
  obtain ⟨scores, hsc, hfst, hval⟩ := uctBuild_ok hT (legalActions s) hch
  have hne : scores ≠ [] := by
    intro h
    rw [h] at hfst
    exact hA hfst.symm
  obtain ⟨q, hq⟩ : ∃ q, pymax (fun p : Nat × ℝ => p.2) scores = some q := by
    have := pymax_isSome (fun p : Nat × ℝ => p.2) scores hne
    exact Option.isSome_iff_exists.mp this
  obtain ⟨k, hk, hle, hlt⟩ := pymax_spec _ scores q hq
  have hgetA : ∀ (m : Nat), (legalActions s)[m]? = (scores[m]?).map Prod.fst := by
    intro m
    rw [← hfst, List.getElem?_map]
  refine ⟨q.1, ?_, k, ?_, ?_, ?_⟩
  · show uct t i s = .ok q.1
    unfold uct
    simp only [hnd, hsc, hq]
  · rw [hgetA, hk]
    rfl
  · intro m b hm
    rw [hgetA] at hm
    cases hqm : scores[m]? with
    | none => rw [hqm] at hm; simp at hm
    | some qm =>
      rw [hqm] at hm
      simp only [Option.map_some', Option.some_inj] at hm
      subst hm
      rw [← hval m qm hqm, ← hval k q hk]
      exact hle m qm hqm
  · intro m b hmk hm
    rw [hgetA] at hm
    cases hqm : scores[m]? with
    | none => rw [hqm] at hm; simp at hm
    | some qm =>
      rw [hqm] at hm
      simp only [Option.map_some', Option.some_inj] at hm
      subst hm
      rw [← hval m qm hqm, ← hval k q hk]
      exact hlt m qm hmk hqm

/-- Witness for C2: the re-rooted one-action tree `treeC3after` at its
root (trials 2) with the single legal action 3 whose child has 1
trial: the policy's preconditions hold and it returns the argmax. -/
theorem c2_witness :
    (getNode treeC3after 1 = some
      { parent := some 0, children := [(3, 2)], agent_id := some 0,
        wins := 2, trials := 2 } ∧
     ({ parent := some 0, children := [(3, 2)], agent_id := some 0,
        wins := 2, trials := 2 } : Node).trials ≠ 0 ∧
     legalActions stateC3 ≠ []) ∧
    (∃ a, uct treeC3after 1 stateC3 = .ok a ∧
      ∃ k : Nat, (legalActions stateC3)[k]? = some a ∧
      (∀ (m : Nat) (b : Nat), (legalActions stateC3)[m]? = some b →
        scoreOf treeC3after
          { parent := some 0, children := [(3, 2)], agent_id := some 0,
            wins := 2, trials := 2 } b ≤
        scoreOf treeC3after
          { parent := some 0, children := [(3, 2)], agent_id := some 0,
            wins := 2, trials := 2 } a) ∧
      (∀ (m : Nat) (b : Nat), m < k → (legalActions stateC3)[m]? = some b →
        scoreOf treeC3after
          { parent := some 0, children := [(3, 2)], agent_id := some 0,
            wins := 2, trials := 2 } b <
        scoreOf treeC3after
          { parent := some 0, children := [(3, 2)], agent_id := some 0,
            wins := 2, trials := 2 } a)) :=
  ⟨⟨by decide, by decide, by decide⟩,
    @c2_uct_first_argmax treeC3after 1 stateC3
      { parent := some 0, children := [(3, 2)], agent_id := some 0,
        wins := 2, trials := 2 }
      (by decide) (by decide) (by decide)
      (by
        intro a ha
        simp only [legalActions, stateC3, List.mem_singleton] at ha
        subst ha
        refine ⟨2, ⟨some 1, [], some 1, 0, 1⟩, by decide, by decide, by decide⟩)⟩

/-! Claim C7: the counter invariant. -/

theorem addChildTree_facts {t : MTree} {f : Nat} {nd : Node} (hnd : getNode t f = some nd)
    (a : Nat) (newNd : Node) :
    (∀ j, j ≠ f → j ≠ t.nodes.length →
      getNode (addChildTree t f nd a newNd) j = getNode t j) ∧
    getNode (addChildTree t f nd a newNd) f =
      some { nd with children := nd.children ++ [(a, t.nodes.length)] } ∧
    getNode (addChildTree t f nd a newNd) t.nodes.length = some newNd ∧
    (addChildTree t f nd a newNd).nodes.length = t.nodes.length + 1 := by
  have hflen : f < t.nodes.length := by
    by_contra hge
    rw [getNode, List.getElem?_eq_none (by omega)] at hnd
    simp at hnd
  refine ⟨?_, ?_, ?_, by simp [addChildTree]⟩
  · intro j hjf hjl
    by_cases hjlt : j < t.nodes.length
    · show (t.nodes.set f _ ++ [newNd])[j]? = getNode t j
      rw [List.getElem?_append, if_pos (by simp only [List.length_set]; omega)]
      rw [List.getElem?_set_ne (fun he => hjf he.symm)]
      rfl
    · show (t.nodes.set f _ ++ [newNd])[j]? = getNode t j
      have h1 : (t.nodes.set f { nd with children := nd.children ++
          [(a, t.nodes.length)] } ++ [newNd])[j]? = (none : Option Node) := by
        apply List.getElem?_eq_none
        simp only [List.length_append, List.length_set, List.length_cons,
          List.length_nil]
        omega
      rw [h1, getNode, List.getElem?_eq_none (by omega)]
  · show (t.nodes.set f _ ++ [newNd])[f]? = _
    rw [List.getElem?_append, if_pos (by simp only [List.length_set]; omega)]
    rw [List.getElem?_set_self hflen]
  · show (t.nodes.set f _ ++ [newNd])[t.nodes.length]? = _
    rw [List.getElem?_append, if_neg (by simp only [List.length_set]; omega)]
    rw [List.length_set]
    simp

theorem expansion_ok_cases {t : MTree} {f r : Nat} {s : Game} {nid : Nat} {t₂ : MTree}
    {s₂ : Game} (h : expansion t f r s = .ok (nid, t₂, s₂)) :
    (t₂ = t ∧ nid = f ∧ s₂ = s) ∨
    (∃ nd a, getNode t f = some nd ∧ nid = t.nodes.length ∧
      t₂ = addChildTree t f nd a
        { parent := some f, children := [], agent_id := some (curOf s),
          wins := 0, trials := 0 }) := by
  unfold expansion at h
  split at h
  · simp at h
  · rename_i nd hnd
    simp only [] at h
    split at h
    · rw [Except.ok.injEq, Prod.mk.injEq, Prod.mk.injEq] at h
      obtain ⟨h1, h2, h3⟩ := h
      exact Or.inl ⟨h2.symm, h1.symm, h3.symm⟩
    · split at h
      · simp at h
      · rename_i a ha
        split at h
        · simp at h
        · rename_i s₃ hs₃
          rw [Except.ok.injEq, Prod.mk.injEq, Prod.mk.injEq] at h
          obtain ⟨h1, h2, h3⟩ := h
          refine Or.inr ⟨nd, a, hnd, h1.symm, ?_⟩
          rw [← h2]
          rfl

theorem countVisits_append (hist : List (List Nat)) (ch : List Nat) (i : Nat) :
    countVisits (hist ++ [ch]) i =
      countVisits hist i + (if i ∈ ch then 1 else 0) := by
  rw [countVisits, countVisits, List.filter_append]
  rw [List.length_append]
  by_cases h : i ∈ ch
  · simp [h]
  · simp [h]

theorem countVisits_zero (hist : List (List Nat)) (i : Nat)
    (h : ∀ ch ∈ hist, i ∉ ch) : countVisits hist i = 0 := by
  rw [countVisits, List.length_eq_zero]
  rw [List.filter_eq_nil_iff]
  intro ch hch
  simp only [decide_eq_true_eq]
  exact h ch hch

theorem expansion_facts_for_inv {t : MTree} {f r : Nat} {s₁ : Game} {nid : Nat}
    {t₂ : MTree} {s₂ : Game} (hexp : expansion t f r s₁ = .ok (nid, t₂, s₂))
    (hP : ParentLt t) (hist : List (List Nat))
    (hbound : ∀ ch ∈ hist, ∀ j ∈ ch, j < t.nodes.length)
    (hcnt : ∀ i nd, getNode t i = some nd →
      nd.wins ≤ nd.trials ∧ nd.trials = countVisits hist i) :
    ParentLt t₂ ∧ (getNode t₂ nid).isSome ∧ t.nodes.length ≤ t₂.nodes.length ∧
    nid < t₂.nodes.length ∧
    (∀ i nd, getNode t₂ i = some nd →
      nd.wins ≤ nd.trials ∧ nd.trials = countVisits hist i) := by
  rcases expansion_ok_cases hexp with ⟨rfl, rfl, rfl⟩ | ⟨nd, a, hnd, rfl, rfl⟩
  · have hfs : (getNode t₂ nid).isSome := by
      unfold expansion at hexp
      split at hexp
      · simp at hexp
      · rename_i nd hnd
        rw [hnd]
        rfl
    have hfl : nid < t₂.nodes.length := by
      by_contra hge
      rw [getNode, List.getElem?_eq_none (by omega)] at hfs
      simp at hfs
    exact ⟨hP, hfs, le_refl _, hfl, hcnt⟩
  · obtain ⟨hother, hfget, hnew, hlen⟩ := addChildTree_facts hnd a
      { parent := some f, children := [], agent_id := some (curOf s₁),
        wins := 0, trials := 0 }
    have hfl : f < t.nodes.length := by
      by_contra hge
      rw [getNode, List.getElem?_eq_none (by omega)] at hnd
      simp at hnd
    refine ⟨?_, by rw [hnew]; rfl, by omega, by omega, ?_⟩
    · intro i nd' p hnd' hp'
      by_cases hif : i = f
      · subst hif
        rw [hfget, Option.some_inj] at hnd'
        rw [← hnd'] at hp'
        exact hP _ nd p hnd hp'
      · by_cases hil : i = t.nodes.length
        · subst hil
          rw [hnew, Option.some_inj] at hnd'
          rw [← hnd'] at hp'
          simp only [Option.some_inj] at hp'
          omega
        · rw [hother i hif hil] at hnd'
          exact hP i nd' p hnd' hp'
    · intro i nd' hnd'
      by_cases hif : i = f
      · subst hif
        rw [hfget, Option.some_inj] at hnd'
        rw [← hnd']
        exact ⟨(hcnt _ nd hnd).1, (hcnt _ nd hnd).2⟩
      · by_cases hil : i = t.nodes.length
        · subst hil
          rw [hnew, Option.some_inj] at hnd'
          rw [← hnd']
          refine ⟨le_refl _, ?_⟩
          rw [countVisits_zero]
          intro ch' hch' hmem
          exact absurd (hbound ch' hch' _ hmem) (by omega)
        · rw [hother i hif hil] at hnd'
          exact hcnt i nd' hnd'

theorem updateNode_facts (nd : Node) (w : Option Nat) :
    (updateNode nd w).trials = nd.trials + 1 ∧
    (updateNode nd w).wins ≤ nd.wins + 1 ∧ nd.wins ≤ (updateNode nd w).wins ∧
    (updateNode nd w).parent = nd.parent := by
  have hm : (match nd.agent_id with
      | none => 0
      | some aid => if w = some aid then 1 else 0) ≤ 1 := by
    cases nd.agent_id with
    | none => exact Nat.zero_le 1
    | some aid =>
      by_cases hw : w = some aid
      · simp [hw]
      · simp [hw]
  refine ⟨rfl, ?_, ?_, rfl⟩
  · show nd.wins + (match nd.agent_id with
      | none => 0
      | some aid => if w = some aid then 1 else 0) ≤ nd.wins + 1
    omega
  · exact Nat.le_add_right _ _

theorem reachT_invariant {pol : Policy} :
    ∀ {t : MTree} {s : Game} {hist : List (List Nat)}, ReachT pol t s hist →
      ParentLt t ∧ (∀ ch ∈ hist, ∀ j ∈ ch, j < t.nodes.length) ∧
      (∀ i nd, getNode t i = some nd →
        nd.wins ≤ nd.trials ∧ nd.trials = countVisits hist i) := by
  intro t s hist h
  induction h with
  | init s =>
    refine ⟨?_, by simp, ?_⟩
    · intro i nd p hnd hp
      match i with
      | 0 =>
        rw [show getNode initTree 0 = some freshNode from rfl, Option.some_inj] at hnd
        rw [← hnd] at hp
        simp [freshNode] at hp
      | i + 1 => simp [getNode, initTree] at hnd
    · intro i nd hnd
      match i with
      | 0 =>
        rw [show getNode initTree 0 = some freshNode from rfl, Option.some_inj] at hnd
        rw [← hnd]
        exact ⟨le_refl _, rfl⟩
      | i + 1 => simp [getNode, initTree] at hnd
  | play t s r rs t' ch hist hre hp hchain ih =>
    obtain ⟨hP, hbound, hcnt⟩ := ih
    obtain ⟨f, s₁, nid, t₂, s₂, w, hsel, hexp, hsim, hbp⟩ := playout_ok_decomp hp
    obtain ⟨hP₂, hvalid, hlen₂, hnidlt, hcnt₂⟩ :=
      expansion_facts_for_inv hexp hP hist hbound hcnt
    obtain ⟨chain, t'', hbp', hchain', hhead, hchbound, hchnodup, hpmem, hform⟩ :=
      backprop_run w t₂.nodes.length nid t₂ hP₂ hvalid (by omega)
    have ht'' : t'' = t' := by
      rw [hbp'] at hbp
      exact Except.ok.inj hbp
    rw [ht''] at hform hbp'
    have hch : ch = chain := by
      unfold playoutChain at hchain
      simp only [hsel, hexp] at hchain
      rw [hchain'] at hchain
      exact (Option.some_inj.mp hchain).symm
    subst hch
    have hlen' : t'.nodes.length = t₂.nodes.length := (backprop_ok_root hbp').2
    refine ⟨?_, ?_, ?_⟩
    · intro i nd p hnd hpr
      have hfi := hform i
      rw [hnd] at hfi
      cases h2 : getNode t₂ i with
      | none => rw [h2] at hfi; simp at hfi
      | some nd₀ =>
        rw [h2] at hfi
        simp only [Option.map_some', Option.some_inj] at hfi
        by_cases hic : i ∈ ch
        · rw [if_pos hic] at hfi
          rw [hfi] at hpr
          rw [show (updateNode nd₀ w).parent = nd₀.parent from rfl] at hpr
          exact hP₂ i nd₀ p h2 hpr
        · rw [if_neg hic] at hfi
          rw [hfi] at hpr
          exact hP₂ i nd₀ p h2 hpr
    · intro ch' hch' j hj
      rcases List.mem_append.mp hch' with hold | hnew
      · have h1 := hbound ch' hold j hj
        omega
      · rw [List.mem_singleton] at hnew
        subst hnew
        have h1 := hchbound j hj
        omega
    · intro i nd hnd
      have hfi := hform i
      rw [hnd] at hfi
      cases h2 : getNode t₂ i with
      | none => rw [h2] at hfi; simp at hfi
      | some nd₀ =>
        rw [h2] at hfi
        simp only [Option.map_some', Option.some_inj] at hfi
        obtain ⟨hw0, ht0⟩ := hcnt₂ i nd₀ h2
        rw [countVisits_append]
        obtain ⟨hu1, hu2, hu3, _⟩ := updateNode_facts nd₀ w
        by_cases hic : i ∈ ch
        · rw [if_pos hic] at hfi
          rw [if_pos hic, hfi]
          exact ⟨by omega, by omega⟩
        · rw [if_neg hic] at hfi
          rw [if_neg hic, hfi]
          exact ⟨hw0, by omega⟩
  | move t s a s' hist hre hta ih =>
    obtain ⟨hP, hbound, hcnt⟩ := ih
    cases hc : (getNode t t.root).bind (fun nd => nd.children.lookup a) with
    | some cid =>
      have htta : treeTakeAction t a = { nodes := t.nodes, root := cid } := by
        unfold treeTakeAction
        rw [hc]
      rw [htta]
      refine ⟨?_, ?_, ?_⟩
      · intro i nd p hnd hpr
        exact hP i nd p hnd hpr
      · intro ch' hch' j hj
        exact hbound ch' hch' j hj
      · intro i nd hnd
        exact hcnt i nd hnd
    | none =>
      have htta : treeTakeAction t a =
          { nodes := t.nodes ++ [freshNode], root := t.nodes.length } := by
        unfold treeTakeAction
        rw [hc]
      rw [htta]
      have hget : ∀ j, j < t.nodes.length →
          getNode { nodes := t.nodes ++ [freshNode], root := t.nodes.length } j =
            getNode t j := by
        intro j hj
        show (t.nodes ++ [freshNode])[j]? = _
        rw [List.getElem?_append, if_pos hj]
        rfl
      have hgetnew : getNode { nodes := t.nodes ++ [freshNode], root := t.nodes.length } t.nodes.length = some freshNode := by
        show (t.nodes ++ [freshNode])[t.nodes.length]? = _
        rw [List.getElem?_append, if_neg (by omega)]
        simp
      have hgetnone : ∀ i, t.nodes.length < i →
          getNode { nodes := t.nodes ++ [freshNode], root := t.nodes.length } i = none := by
        intro i hi
        show (t.nodes ++ [freshNode])[i]? = none
        apply List.getElem?_eq_none
        simp only [List.length_append, List.length_cons, List.length_nil]
        omega
      refine ⟨?_, ?_, ?_⟩
      · intro i nd p hnd hpr
        by_cases hil : i < t.nodes.length
        · exact hP i nd p ((hget i hil) ▸ hnd) hpr
        · by_cases hie : i = t.nodes.length
          · subst hie
            rw [hgetnew, Option.some_inj] at hnd
            rw [← hnd] at hpr
            simp [freshNode] at hpr
          · rw [hgetnone i (by omega)] at hnd
            simp at hnd
      · intro ch' hch' j hj
        have h1 := hbound ch' hch' j hj
        simp only [List.length_append, List.length_cons, List.length_nil]
        omega
      · intro i nd hnd
        by_cases hil : i < t.nodes.length
        · exact hcnt i nd ((hget i hil) ▸ hnd)
        · by_cases hie : i = t.nodes.length
          · subst hie
            rw [hgetnew, Option.some_inj] at hnd
            rw [← hnd]
            refine ⟨le_refl _, ?_⟩
            have hz : countVisits hist t.nodes.length = 0 := by
              apply countVisits_zero
              intro ch' hch' hmem
              exact absurd (hbound ch' hch' _ hmem) (by omega)
            rw [hz]
            rfl
          · rw [hgetnone i (by omega)] at hnd
            simp at hnd

/-- C7: at every playout and root-advance boundary of any agent run,
every node satisfies 0 <= wins <= trials, and its trials counter equals
the number of completed backpropagation passes that visited it (each
pass adds exactly 1 trial and 0 or 1 wins per visited node; new nodes
start at 0/0). -/
theorem c7_wins_le_trials_eq_visits {pol : Policy} {t : MTree} {s : Game}
    {hist : List (List Nat)} (h : ReachT pol t s hist) :
    ∀ i nd, getNode t i = some nd →
      nd.wins ≤ nd.trials ∧ nd.trials = countVisits hist i :=
  fun i nd hnd => (reachT_invariant h).2.2 i nd hnd

/-- Witness for C7: after the single recorded playout on `gameC3` (its
pass visited nodes 1 and 0), both nodes have trials 1 = one recorded
visit and wins bounded by trials. -/
theorem c7_witness :
    ReachT uct { nodes := treeC3.nodes, root := 0 } gameC3 [[1, 0]] ∧
    (∀ i nd, getNode { nodes := treeC3.nodes, root := 0 } i = some nd →
      nd.wins ≤ nd.trials ∧ nd.trials = countVisits [[1, 0]] i) := by
  have hre : ReachT uct { nodes := treeC3.nodes, root := 0 } gameC3 [[1, 0]] :=
    ReachT.play initTree gameC3 0 [0] { nodes := treeC3.nodes, root := 0 }
      [1, 0] [] (ReachT.init gameC3) (by rfl) (by rfl)
  exact ⟨hre, c7_wins_le_trials_eq_visits hre⟩

/-! Claim C8: the selection phase never hits the error branches on
reachable configurations.  First, helper lemmas. -/

theorem simulation_ok {g : Game} (hWF : WFGame g) :
    ∀ rs : List Nat, ∃ w, simulation g rs = .ok w := by
  induction hWF with
  | fin c w => intro rs; exact ⟨w, rfl⟩
  | act c legal next hne hnodup hnext ih =>
    intro rs
    have hlen : 0 < legal.length := List.length_pos.mpr hne
    have hidx : (rs.headD 0) % legal.length < legal.length := Nat.mod_lt _ hlen
    obtain ⟨a, ha⟩ : ∃ a, legal[(rs.headD 0) % legal.length]? = some a :=
      ⟨legal.get ⟨(rs.headD 0) % legal.length, hidx⟩, List.getElem?_eq_getElem hidx⟩
    have hmem : a ∈ legal := List.getElem?_mem ha
    obtain ⟨w, hw⟩ := ih a hmem rs.tail
    refine ⟨w, ?_⟩
    rw [simulation, ha]
    exact hw

theorem childPath_trans {t : MTree} {x y z : Nat} (h1 : ChildPath t x y)
    (h2 : ChildPath t y z) : ChildPath t x z := by
  induction h2 with
  | refl => exact h1
  | step hp hnd hmem ih => exact .step ih hnd hmem

theorem childPath_childless {t : MTree} {i : Nat} {nd : Node}
    (hnd : getNode t i = some nd) (hch : nd.children = []) :
    ∀ j, ChildPath t i j → j = i := by
  intro j hp
  induction hp with
  | refl => rfl
  | step hp hnd' hmem ih =>
    rename_i i' nd' a c
    rw [ih] at hnd'
    rw [hnd, Option.some_inj] at hnd'
    rw [← hnd', hch] at hmem
    simp at hmem

theorem legal_subset_keys {legal keys : List Nat} (hsub : ∀ k ∈ keys, k ∈ legal)
    (hnk : keys.Nodup) (hnl : legal.Nodup) (hlen : legal.length ≤ keys.length) :
    ∀ a ∈ legal, a ∈ keys := by
  intro a ha
  have hsubF : keys.toFinset ⊆ legal.toFinset := by
    intro x hx
    rw [List.mem_toFinset] at hx ⊢
    exact hsub x hx
  have hcards : legal.toFinset.card ≤ keys.toFinset.card := by
    rw [List.toFinset_card_of_nodup hnk, List.toFinset_card_of_nodup hnl]
    exact hlen
  have heq : keys.toFinset = legal.toFinset :=
    Finset.eq_of_subset_of_card_le hsubF hcards
  rw [← List.mem_toFinset, ← heq, List.mem_toFinset] at ha
  exact ha

theorem uct_ok_mem {t : MTree} {i : Nat} {s : Game} {nd : Node}
    (hnd : getNode t i = some nd) (hT : nd.trials ≠ 0) (hA : legalActions s ≠ [])
    (hch : ∀ a ∈ legalActions s, ∃ c cd, nd.children.lookup a = some c ∧
      getNode t c = some cd ∧ cd.trials ≠ 0) :
    ∃ a, uct t i s = .ok a ∧ a ∈ legalActions s := by
  obtain ⟨scores, hsc, hfst, _⟩ := uctBuild_ok hT _ hch
  have hne : scores ≠ [] := by
    intro h
    rw [h] at hfst
    exact hA hfst.symm
  obtain ⟨q, hq⟩ : ∃ q, pymax (fun p : Nat × ℝ => p.2) scores = some q :=
    Option.isSome_iff_exists.mp (pymax_isSome _ scores hne)
  refine ⟨q.1, ?_, ?_⟩
  · unfold uct
    simp only [hnd, hsc, hq]
  · rw [← hfst]
    exact List.mem_map_of_mem Prod.fst (pymax_mem _ scores q hq)

theorem expansion_no_untried {t : MTree} {f r : Nat} {s : Game} {nd : Node}
    (hnd : getNode t f = some nd)
    (hp : (legalActions s).filter (fun a => (nd.children.lookup a).isNone) = []) :
    expansion t f r s = .ok (f, t, s) := by
  unfold expansion
  rw [hnd]
  simp only []
  rw [if_pos hp]

theorem expansion_with_untried {t : MTree} {f r : Nat} {s : Game} {nd : Node}
    (hnd : getNode t f = some nd)
    (hne : (legalActions s).filter (fun a => (nd.children.lookup a).isNone) ≠ []) :
    ∃ a s', a ∈ legalActions s ∧ nd.children.lookup a = none ∧
      takeAct s a = some s' ∧
      expansion t f r s = .ok (t.nodes.length,
        addChildTree t f nd a
          { parent := some f, children := [], agent_id := some (curOf s),
            wins := 0, trials := 0 }, s') := by
  have hlenpos : 0 < ((legalActions s).filter
      (fun a => (nd.children.lookup a).isNone)).length := List.length_pos.mpr hne
  have hidx : r % ((legalActions s).filter
      (fun a => (nd.children.lookup a).isNone)).length <
      ((legalActions s).filter (fun a => (nd.children.lookup a).isNone)).length :=
    Nat.mod_lt _ hlenpos
  set possible := (legalActions s).filter (fun a => (nd.children.lookup a).isNone)
    with hposs
  obtain ⟨a, ha⟩ : ∃ a, possible[r % possible.length]? = some a :=
    ⟨possible.get ⟨r % possible.length, hidx⟩, List.getElem?_eq_getElem hidx⟩
  have hamem : a ∈ possible := List.getElem?_mem ha
  rw [hposs, List.mem_filter] at hamem
  obtain ⟨haleg, hanone⟩ := hamem
  have hanone' : nd.children.lookup a = none := by
    rwa [Option.isNone_iff_eq_none] at hanone
  obtain ⟨s', hs'⟩ : ∃ s', takeAct s a = some s' := by
    cases s with
    | fin c w => rw [legalActions] at haleg; simp at haleg
    | act c legal next =>
      rw [legalActions] at haleg
      rw [takeAct, if_pos haleg]
      exact ⟨next a, rfl⟩
  refine ⟨a, s', haleg, hanone', hs', ?_⟩
  unfold expansion
  rw [hnd]
  simp only []
  rw [if_neg hne, ← hposs]
  simp only [ha, hs']
  rfl

theorem addChildTree_parentLt {t : MTree} {f : Nat} {nd : Node} {a : Nat}
    {newNd : Node} (hnd : getNode t f = some nd) (hP : ParentLt t)
    (hpar : newNd.parent = some f) : ParentLt (addChildTree t f nd a newNd) := by
  obtain ⟨hother, hfget, hnew, hlen⟩ := addChildTree_facts hnd a newNd
  have hfl : f < t.nodes.length := by
    by_contra hge
    rw [getNode, List.getElem?_eq_none (by omega)] at hnd
    simp at hnd
  intro i nd' p hnd' hp'
  by_cases hif : i = f
  · subst hif
    rw [hfget, Option.some_inj] at hnd'
    rw [← hnd'] at hp'
    exact hP _ nd p hnd hp'
  · by_cases hil : i = t.nodes.length
    · subst hil
      rw [hnew, Option.some_inj] at hnd'
      rw [← hnd', hpar, Option.some_inj] at hp'
      omega
    · rw [hother i hif hil] at hnd'
      exact hP i nd' p hnd' hp'

theorem childPath_congr_children {t t' : MTree}
    (h : ∀ j, (getNode t' j).map Node.children = (getNode t j).map Node.children) :
    ∀ {c j : Nat}, ChildPath t c j → ChildPath t' c j := by
  intro c j hp
  induction hp with
  | refl => exact .refl
  | step hp hnd hmem ih =>
    rename_i i nd a cc
    have hji := h i
    rw [hnd] at hji
    cases h2 : getNode t' i with
    | none => rw [h2] at hji; simp at hji
    | some nd' =>
      rw [h2] at hji
      simp only [Option.map_some', Option.some_inj] at hji
      exact .step ih h2 (by rw [hji]; exact hmem)

theorem nodeOK_transfer {t t' : MTree} {σ : Nat → Game}
    (hch : ∀ j, (getNode t' j).map Node.children = (getNode t j).map Node.children)
    (hpar : ∀ j, (getNode t' j).map Node.parent = (getNode t j).map Node.parent)
    (htr : ∀ j nd nd', getNode t j = some nd → getNode t' j = some nd' →
      nd.trials ≤ nd'.trials)
    {i : Nat} (hOK : NodeOK t σ i) : NodeOK t' σ i := by
  obtain ⟨nd, hnd, hk, hv, ht1, hwf, hent⟩ := hOK
  have hji := hch i
  rw [hnd] at hji
  cases h2 : getNode t' i with
  | none => rw [h2] at hji; simp at hji
  | some nd' =>
    rw [h2] at hji
    simp only [Option.map_some', Option.some_inj] at hji
    refine ⟨nd', h2, by rw [hji]; exact hk, by rw [hji]; exact hv, ?_, hwf, ?_⟩
    · intro hne
      have h4 := ht1 (by rw [← hji]; exact hne)
      have h5 := htr i nd nd' hnd h2
      omega
    · intro p hp
      rw [hji] at hp
      obtain ⟨hleg, hlt, ⟨cd, hcd, hcpar, hct⟩, hta⟩ := hent p hp
      refine ⟨hleg, hlt, ?_, hta⟩
      have hjc := hpar p.2
      rw [hcd] at hjc
      cases h3 : getNode t' p.2 with
      | none => rw [h3] at hjc; simp at hjc
      | some cd' =>
        rw [h3] at hjc
        simp only [Option.map_some', Option.some_inj] at hjc
        refine ⟨cd', rfl, by rw [hjc]; exact hcpar, ?_⟩
        have h6 := htr p.2 cd cd' hcd h3
        omega

theorem selection_ok_inv (t : MTree) (σ : Nat → Game)
    (hOK : ∀ i, ChildPath t t.root i → NodeOK t σ i) :
    ∀ (g : Game) (i : Nat), ChildPath t t.root i → σ i = g →
      ∃ f g', selection uct t i g = .ok (f, g') ∧ ChildPath t t.root f ∧
        σ f = g' := by
  intro g
  induction g with
  | fin c w =>
    intro i hpath hσ
    obtain ⟨nd, hnd, hk, hv, ht1, hwf, hent⟩ := hOK i hpath
    have hchn : nd.children = [] := by
      cases hcc : nd.children with
      | nil => rfl
      | cons p rest =>
        have hm : p ∈ nd.children := by
          rw [hcc]
          exact List.mem_cons_self _ _
        have h1 := (hent p hm).1
        rw [hσ] at h1
        simp only [legalActions] at h1
        simp at h1
    refine ⟨i, .fin c w, ?_, hpath, hσ⟩
    simp only [selection, hnd]
    rw [if_pos (Or.inr hchn)]
  | act c legal next ih =>
    intro i hpath hσ
    obtain ⟨nd, hnd, hk, hv, ht1, hwf, hent⟩ := hOK i hpath
    by_cases hguard : legal.length > nd.children.length ∨ nd.children = []
    · refine ⟨i, .act c legal next, ?_, hpath, hσ⟩
      simp only [selection, hnd]
      rw [if_pos hguard]
    · push_neg at hguard
      obtain ⟨hlen, hne⟩ := hguard
      have hwf' : WFGame (.act c legal next) := by
        rw [← hσ]
        exact hwf
      have hnl : legal.Nodup := by
        cases hwf' with
        | act _ _ _ h1 h2 h3 => exact h2
      have hkeysub : ∀ k ∈ nd.children.map Prod.fst, k ∈ legal := by
        intro k hkm
        obtain ⟨p, hpm, hpk⟩ := List.mem_map.mp hkm
        have h1 := (hent p hpm).1
        rw [hσ] at h1
        simp only [legalActions] at h1
        rw [← hpk]
        exact h1
      have hlegal_ne : legal ≠ [] := by
        cases hcc : nd.children with
        | nil => exact absurd hcc hne
        | cons p rest =>
          intro hl0
          have hm : p ∈ nd.children := by
            rw [hcc]
            exact List.mem_cons_self _ _
          have h1 := hkeysub p.1 (List.mem_map_of_mem Prod.fst hm)
          rw [hl0] at h1
          simp at h1
      have hT : nd.trials ≠ 0 := by
        have h1 := ht1 hne
        omega
      have hkeylen : legal.length ≤ (nd.children.map Prod.fst).length := by
        rw [List.length_map]
        omega
      have hmemkeys : ∀ a ∈ legal, a ∈ nd.children.map Prod.fst :=
        legal_subset_keys hkeysub hk hnl hkeylen
      have hlkof : ∀ {a : Nat}, a ∈ legal → ∃ p : Nat × Nat, p ∈ nd.children ∧
          p.1 = a ∧ nd.children.lookup a = some p.2 := by
        intro a ha
        obtain ⟨p, hpm, hpk⟩ := List.mem_map.mp (hmemkeys a ha)
        refine ⟨p, hpm, hpk, ?_⟩
        rw [← hpk]
        apply mem_lookup_of_nodup hk
        rw [Prod.mk.eta]
        exact hpm
      have hch8 : ∀ a ∈ legalActions (.act c legal next), ∃ cA cd,
          nd.children.lookup a = some cA ∧ getNode t cA = some cd ∧
          cd.trials ≠ 0 := by
        intro a ha
        simp only [legalActions] at ha
        obtain ⟨p, hpm, hpk, hlk⟩ := hlkof ha
        obtain ⟨hleg, hlt, ⟨cd, hcd, hcpar, hct⟩, hta⟩ := hent p hpm
        exact ⟨p.2, cd, hlk, hcd, by omega⟩
      obtain ⟨a, huct, haleg⟩ := uct_ok_mem hnd hT
        (by simp only [legalActions]; exact hlegal_ne) hch8
      simp only [legalActions] at haleg
      obtain ⟨p, hpm, hpk, hlk⟩ := hlkof haleg
      obtain ⟨hleg, hlt, ⟨cd, hcd, hcpar, hct⟩, hta⟩ := hent p hpm
      have hσc : σ p.2 = next a := by
        rw [hσ] at hta
        simp only [takeAct] at hta
        rw [if_pos (by rw [hpk]; exact haleg)] at hta
        rw [Option.some_inj] at hta
        rw [← hta, hpk]
      have hpathc : ChildPath t t.root p.2 := by
        refine @ChildPath.step t t.root i nd p.1 p.2 hpath hnd ?_
        rw [Prod.mk.eta]
        exact hpm
      have hseleq : selection uct t i (.act c legal next) =
          selection uct t p.2 (next a) := by
        simp only [selection, hnd]
        rw [if_neg (by push_neg; exact ⟨by omega, hne⟩)]
        simp only [huct, hlk]
        rw [if_pos haleg]
      obtain ⟨f, g', hrec, hpf, hσf⟩ := ih a p.2 hpathc hσc
      exact ⟨f, g', by rw [hseleq]; exact hrec, hpf, hσf⟩

theorem wfGame_takeAct {g g₂ : Game} {a : Nat} (h : WFGame g)
    (hta : takeAct g a = some g₂) : WFGame g₂ := by
  cases h with
  | fin c w => simp [takeAct] at hta
  | act c legal next h1 h2 h3 =>
    simp only [takeAct] at hta
    by_cases ha : a ∈ legal
    · rw [if_pos ha, Option.some_inj] at hta
      rw [← hta]
      exact h3 a ha
    · rw [if_neg ha] at hta
      simp at hta

theorem backprop_form_premises {t t' : MTree} {ch : List Nat} {w : Option Nat}
    (hform : ∀ j, getNode t' j = (getNode t j).map
      (fun nd => if j ∈ ch then updateNode nd w else nd)) :
    (∀ j, (getNode t' j).map Node.children = (getNode t j).map Node.children) ∧
    (∀ j, (getNode t' j).map Node.parent = (getNode t j).map Node.parent) ∧
    (∀ j nd nd', getNode t j = some nd → getNode t' j = some nd' →
      nd.trials ≤ nd'.trials) := by
  refine ⟨?_, ?_, ?_⟩
  · intro j
    rw [hform j]
    cases getNode t j with
    | none => rfl
    | some nd =>
      simp only [Option.map_some']
      by_cases hj : j ∈ ch
      · rw [if_pos hj]
        rfl
      · rw [if_neg hj]
  · intro j
    rw [hform j]
    cases getNode t j with
    | none => rfl
    | some nd =>
      simp only [Option.map_some']
      by_cases hj : j ∈ ch
      · rw [if_pos hj]
        rfl
      · rw [if_neg hj]
  · intro j nd nd' hnd hnd'
    rw [hform j, hnd] at hnd'
    simp only [Option.map_some', Option.some_inj] at hnd'
    by_cases hj : j ∈ ch
    · rw [if_pos hj] at hnd'
      rw [← hnd']
      rw [show (updateNode nd w).trials = nd.trials + 1 from rfl]
      omega
    · rw [if_neg hj] at hnd'
      rw [← hnd']

theorem parentLt_transfer {t t' : MTree}
    (hpar : ∀ j, (getNode t' j).map Node.parent = (getNode t j).map Node.parent)
    (hP : ParentLt t) : ParentLt t' := by
  intro i nd p hnd hp
  have hi := hpar i
  rw [hnd] at hi
  cases h2 : getNode t i with
  | none => rw [h2] at hi; simp at hi
  | some nd₀ =>
    rw [h2] at hi
    simp only [Option.map_some', Option.some_inj] at hi
    rw [hi] at hp
    exact hP i nd₀ p h2 hp

theorem childPath_addChild {t : MTree} {f : Nat} {nd : Node} {a : Nat}
    {newNd : Node} (hnd : getNode t f = some nd) (hnew : newNd.children = [])
    (hvalid : ∀ j, ChildPath t t.root j → (getNode t j).isSome) :
    (∀ j, ChildPath (addChildTree t f nd a newNd) t.root j →
      ChildPath t t.root j ∨ j = t.nodes.length) ∧
    (∀ j, ChildPath t t.root j → ChildPath (addChildTree t f nd a newNd) t.root j) := by
  obtain ⟨hother, hfget, hnewget, hlen⟩ := addChildTree_facts hnd a newNd
  have hvlen : ∀ j, ChildPath t t.root j → j < t.nodes.length := by
    intro j hj
    have h1 := hvalid j hj
    by_contra hge
    rw [getNode, List.getElem?_eq_none (by omega)] at h1
    simp at h1
  constructor
  · intro j hj
    induction hj with
    | refl => exact Or.inl .refl
    | step hp hnd' hmem ih =>
      rename_i i ndi aa cc
      rcases ih with hold | hnewi
      · by_cases hif : i = f
        · subst hif
          rw [hfget, Option.some_inj] at hnd'
          rw [← hnd'] at hmem
          simp only [] at hmem
          rcases List.mem_append.mp hmem with hmo | hmn
          · exact Or.inl (.step hold hnd hmo)
          · rw [List.mem_singleton, Prod.mk.injEq] at hmn
            exact Or.inr hmn.2
        · have hil : i ≠ t.nodes.length := by
            have := hvlen i hold
            omega
          rw [hother i hif hil] at hnd'
          exact Or.inl (.step hold hnd' hmem)
      · subst hnewi
        rw [hnewget, Option.some_inj] at hnd'
        rw [← hnd', hnew] at hmem
        simp at hmem
  · intro j hj
    induction hj with
    | refl => exact .refl
    | step hp hnd' hmem ih =>
      rename_i i ndi aa cc
      by_cases hif : i = f
      · subst hif
        rw [hnd, Option.some_inj] at hnd'
        refine @ChildPath.step _ t.root _ _ aa cc ih hfget ?_
        rw [← hnd'] at hmem
        show (aa, cc) ∈ nd.children ++ [(a, t.nodes.length)]
        exact List.mem_append_left _ hmem
      · have hil : i ≠ t.nodes.length := by
          have := hvlen i hp
          omega
        refine .step ih ?_ hmem
        rw [hother i hif hil]
        exact hnd'

theorem playout_preserves_inv {t : MTree} {s : Game} (hInv : TreeInv t s)
    (r : Nat) (rs : List Nat) :
    ∃ t', playout uct t s r rs = .ok t' ∧ TreeInv t' s := by
  obtain ⟨hP, σ, hσroot, hOK⟩ := hInv
  have hvalid : ∀ j, ChildPath t t.root j → (getNode t j).isSome := by
    intro j hj
    obtain ⟨nd, hnd, _⟩ := hOK j hj
    rw [hnd]
    rfl
  have hvlen : ∀ j, ChildPath t t.root j → j < t.nodes.length := by
    intro j hj
    have h1 := hvalid j hj
    by_contra hge
    rw [getNode, List.getElem?_eq_none (by omega)] at h1
    simp at h1
  obtain ⟨f, g', hsel, hpathf, hσf⟩ := selection_ok_inv t σ hOK s t.root .refl hσroot
  obtain ⟨nd, hnd, hk, hv, ht1, hwf, hent⟩ := hOK f hpathf
  have hwfg' : WFGame g' := by
    rw [← hσf]
    exact hwf
  have hflen : f < t.nodes.length := hvlen f hpathf
  have hrootlen : t.root < t.nodes.length := hvlen t.root .refl
  have hentlen : ∀ p ∈ nd.children, p.2 < t.nodes.length := by
    intro p hp
    obtain ⟨_, _, ⟨cd, hcd, _, _⟩, _⟩ := hent p hp
    by_contra hge
    rw [getNode, List.getElem?_eq_none (by omega)] at hcd
    simp at hcd
  by_cases hun : (legalActions g').filter (fun x => (nd.children.lookup x).isNone) = []
  · have hexp := @expansion_no_untried t f r g' nd hnd hun
    obtain ⟨w, hsim⟩ := simulation_ok hwfg' rs
    obtain ⟨ch, t', hbp, hchain, hhead, hchbound, hchnodup, hpmem, hform⟩ :=
      backprop_run w t.nodes.length f t hP (by rw [hnd]; rfl) (by omega)
    obtain ⟨cEq, pEq, tMono⟩ := backprop_form_premises hform
    have hroot' : t'.root = t.root := (backprop_ok_root hbp).1
    refine ⟨t', ?_, ?_⟩
    · unfold playout
      simp only [copyGame, hsel, hexp, hsim]
      exact hbp
    · refine ⟨parentLt_transfer pEq hP, σ, ?_, ?_⟩
      · rw [hroot']
        exact hσroot
      · intro i hpi
        rw [hroot'] at hpi
        have hpi' : ChildPath t t.root i :=
          childPath_congr_children (fun j => (cEq j).symm) hpi
        exact nodeOK_transfer cEq pEq tMono (hOK i hpi')
  · obtain ⟨a₀, s₂, ha₀leg, ha₀none, hs₂, hexp⟩ :=
      @expansion_with_untried t f r g' nd hnd hun
    have hnewWf : WFGame s₂ := wfGame_takeAct hwfg' hs₂
    obtain ⟨hother, hfget, hnewget, hlen2⟩ := addChildTree_facts hnd a₀
      ⟨some f, [], some (curOf g'), 0, 0⟩
    have hP₂ : ParentLt (addChildTree t f nd a₀ ⟨some f, [], some (curOf g'), 0, 0⟩) :=
      addChildTree_parentLt hnd hP rfl
    obtain ⟨w, hsim⟩ := simulation_ok hnewWf rs
    obtain ⟨ch, t', hbp, hchain, hhead, hchbound, hchnodup, hpmem, hform⟩ :=
      backprop_run w
        (addChildTree t f nd a₀ ⟨some f, [], some (curOf g'), 0, 0⟩).nodes.length
        t.nodes.length
        (addChildTree t f nd a₀ ⟨some f, [], some (curOf g'), 0, 0⟩)
        hP₂ (by rw [hnewget]; rfl) (by omega)
    obtain ⟨cEq, pEq, tMono⟩ := backprop_form_premises hform
    have hroot' : t'.root = t.root := by
      rw [(backprop_ok_root hbp).1]
      rfl
    have hfch : f ∈ ch := hpmem ⟨some f, [], some (curOf g'), 0, 0⟩ f hnewget rfl
    have hnch : t.nodes.length ∈ ch := head_mem_of_head? hhead
    obtain ⟨hpathTo, hpathFrom⟩ :=
      @childPath_addChild t f nd a₀ ⟨some f, [], some (curOf g'), 0, 0⟩ hnd rfl hvalid
    have hgOld : ∀ j, j ≠ f → j < t.nodes.length →
        getNode t' j = (getNode t j).map
          (fun q => if j ∈ ch then updateNode q w else q) := by
      intro j hjf hjl
      rw [hform j, hother j hjf (by omega)]
    have hgF : ∃ ndf, getNode t' f = some ndf ∧
        ndf.children = nd.children ++ [(a₀, t.nodes.length)] ∧
        ndf.parent = nd.parent ∧
        nd.trials ≤ ndf.trials ∧ 1 ≤ ndf.trials := by
      refine ⟨updateNode { nd with children := nd.children ++ [(a₀, t.nodes.length)] } w,
        ?_, rfl, rfl, ?_, ?_⟩
      · rw [hform f, hfget]
        simp only [Option.map_some']
        rw [if_pos hfch]
      · rw [show (updateNode { nd with children := nd.children ++
            [(a₀, t.nodes.length)] } w).trials = nd.trials + 1 from rfl]
        omega
      · rw [show (updateNode { nd with children := nd.children ++
            [(a₀, t.nodes.length)] } w).trials = nd.trials + 1 from rfl]
        omega
    have hgN : ∃ ndn, getNode t' t.nodes.length = some ndn ∧ ndn.children = [] ∧
        ndn.parent = some f ∧ 1 ≤ ndn.trials := by
      refine ⟨updateNode ⟨some f, [], some (curOf g'), 0, 0⟩ w, ?_, rfl, rfl, ?_⟩
      · rw [hform _, hnewget]
        simp only [Option.map_some']
        rw [if_pos hnch]
      · show 1 ≤ 0 + 1
        omega
    have hchildAt : ∀ q cq, getNode t q = some cq →
        ∃ cq', getNode t' q = some cq' ∧ cq'.parent = cq.parent ∧
          cq.trials ≤ cq'.trials := by
      intro q cq hq
      by_cases hqf : q = f
      · subst hqf
        have hcqnd : cq = nd := by
          rw [hq, Option.some_inj] at hnd
          exact hnd
        subst hcqnd
        obtain ⟨ndf, h1, h2, h3, h4, h5⟩ := hgF
        exact ⟨ndf, h1, h3, h4⟩
      · have hql : q < t.nodes.length := by
          by_contra hge
          rw [getNode, List.getElem?_eq_none (by omega)] at hq
          simp at hq
        rw [hgOld q hqf hql, hq]
        simp only [Option.map_some']
        by_cases hqc : q ∈ ch
        · rw [if_pos hqc]
          refine ⟨_, rfl, rfl, ?_⟩
          rw [show (updateNode cq w).trials = cq.trials + 1 from rfl]
          omega
        · rw [if_neg hqc]
          exact ⟨cq, rfl, rfl, le_refl _⟩
    refine ⟨t', ?_, ?_⟩
    · unfold playout
      simp only [copyGame, hsel, hexp, hsim]
      exact hbp
    · refine ⟨parentLt_transfer pEq hP₂,
        fun j => if j = t.nodes.length then s₂ else σ j, ?_, ?_⟩
      · rw [hroot']
        show (if t.root = t.nodes.length then s₂ else σ t.root) = s
        rw [if_neg (by omega)]
        exact hσroot
      · intro i hpi
        rw [hroot'] at hpi
        have hpi2 : ChildPath (addChildTree t f nd a₀
            ⟨some f, [], some (curOf g'), 0, 0⟩) t.root i :=
          childPath_congr_children (fun j => (cEq j).symm) hpi
        rcases hpathTo i hpi2 with hold | hnewi
        · by_cases hif : i = f
          · subst hif
            obtain ⟨ndf, h1, h2, h3, h4, h5⟩ := hgF
            have hka : a₀ ∉ nd.children.map Prod.fst := by
              intro hmem'
              obtain ⟨p, hpm', hpk'⟩ := List.mem_map.mp hmem'
              have hsome := lookup_isSome_of_mem
                (show (a₀, p.2) ∈ nd.children by
                  rw [show (a₀, p.2) = p from by rw [← hpk', Prod.mk.eta]]
                  exact hpm')
              rw [ha₀none] at hsome
              simp at hsome
            refine ⟨ndf, h1, ?_, ?_, fun _ => h5, ?_, ?_⟩
            · rw [h2, List.map_append]
              refine List.Nodup.append hk (by simp) ?_
              intro x hx hx2
              simp at hx2
              rw [hx2] at hx
              exact hka hx
            · rw [h2, List.map_append]
              refine List.Nodup.append hv (by simp) ?_
              intro x hx hx2
              simp at hx2
              obtain ⟨p, hpm', hpk'⟩ := List.mem_map.mp hx
              have := hentlen p hpm'
              omega
            · show WFGame (if i = t.nodes.length then s₂ else σ i)
              rw [if_neg (by omega)]
              exact hwf
            · intro p hp
              rw [h2] at hp
              rcases List.mem_append.mp hp with hpold | hpnew
              · obtain ⟨hleg, hlt, ⟨cd, hcd, hcp, hct⟩, hta⟩ := hent p hpold
                have hp2l : p.2 < t.nodes.length := hentlen p hpold
                obtain ⟨cd', hc1, hc2, hc3⟩ := hchildAt p.2 cd hcd
                refine ⟨?_, hlt, ⟨cd', hc1, by rw [hc2]; exact hcp, by omega⟩, ?_⟩
                · show p.1 ∈ legalActions (if i = t.nodes.length then s₂ else σ i)
                  rw [if_neg (by omega)]
                  exact hleg
                · show takeAct (if i = t.nodes.length then s₂ else σ i) p.1 =
                    some (if p.2 = t.nodes.length then s₂ else σ p.2)
                  rw [if_neg (by omega), if_neg (by omega)]
                  exact hta
              · rw [List.mem_singleton] at hpnew
                subst hpnew
                obtain ⟨ndn, hh1, hh2, hh3, hh4⟩ := hgN
                refine ⟨?_, by omega, ⟨ndn, hh1, hh3, hh4⟩, ?_⟩
                · show a₀ ∈ legalActions (if i = t.nodes.length then s₂ else σ i)
                  rw [if_neg (by omega), hσf]
                  exact ha₀leg
                · show takeAct (if i = t.nodes.length then s₂ else σ i) a₀ =
                    some (if t.nodes.length = t.nodes.length then s₂ else σ t.nodes.length)
                  rw [if_neg (by omega), if_pos rfl, hσf]
                  exact hs₂
          · obtain ⟨ndi, hndi, hki, hvi, hti, hwfi, henti⟩ := hOK i hold
            have hil : i < t.nodes.length := hvlen i hold
            have hchi : (if i ∈ ch then updateNode ndi w else ndi).children =
                ndi.children := by
              by_cases h7 : i ∈ ch
              · rw [if_pos h7]
                rfl
              · rw [if_neg h7]
            have htri : ndi.trials ≤ (if i ∈ ch then updateNode ndi w else ndi).trials := by
              by_cases h7 : i ∈ ch
              · rw [if_pos h7]
                rw [show (updateNode ndi w).trials = ndi.trials + 1 from rfl]
                omega
              · rw [if_neg h7]
            refine ⟨if i ∈ ch then updateNode ndi w else ndi, ?_, ?_, ?_, ?_, ?_, ?_⟩
            · rw [hgOld i hif hil, hndi]
              rfl
            · rw [hchi]
              exact hki
            · rw [hchi]
              exact hvi
            · rw [hchi]
              intro hne2
              have := hti hne2
              omega
            · show WFGame (if i = t.nodes.length then s₂ else σ i)
              rw [if_neg (by omega)]
              exact hwfi
            · intro p hp
              rw [hchi] at hp
              obtain ⟨hleg, hlt, ⟨cd, hcd, hcp, hct⟩, hta⟩ := henti p hp
              have hp2l : p.2 < t.nodes.length := by
                by_contra hge
                rw [getNode, List.getElem?_eq_none (by omega)] at hcd
                simp at hcd
              obtain ⟨cd', hc1, hc2, hc3⟩ := hchildAt p.2 cd hcd
              refine ⟨?_, hlt, ⟨cd', hc1, by rw [hc2]; exact hcp, by omega⟩, ?_⟩
              · show p.1 ∈ legalActions (if i = t.nodes.length then s₂ else σ i)
                rw [if_neg (by omega)]
                exact hleg
              · show takeAct (if i = t.nodes.length then s₂ else σ i) p.1 =
                  some (if p.2 = t.nodes.length then s₂ else σ p.2)
                rw [if_neg (by omega), if_neg (by omega)]
                exact hta
        · subst hnewi
          obtain ⟨ndn, hh1, hh2, hh3, hh4⟩ := hgN
          refine ⟨ndn, hh1, by rw [hh2]; simp, by rw [hh2]; simp,
            fun hne2 => absurd hh2 hne2, ?_, ?_⟩
          · show WFGame (if t.nodes.length = t.nodes.length then s₂ else σ _)
            rw [if_pos rfl]
            exact hnewWf
          · intro p hp
            rw [hh2] at hp
            simp at hp

theorem move_preserves_inv {t : MTree} {s : Game} {a : Nat} {s' : Game}
    (hInv : TreeInv t s) (hta : takeAct s a = some s') :
    TreeInv (treeTakeAction t a) s' := by
  obtain ⟨hP, σ, hσroot, hOK⟩ := hInv
  obtain ⟨rd, hrd, hkr, hvr, htr, hwfr, hentr⟩ := hOK t.root .refl
  cases hc : (getNode t t.root).bind (fun nd => nd.children.lookup a) with
  | some cid =>
    have htta : treeTakeAction t a = { nodes := t.nodes, root := cid } := by
      unfold treeTakeAction
      rw [hc]
    rw [htta]
    rw [hrd, Option.some_bind] at hc
    have hmem := lookup_mem hc
    obtain ⟨hleg, hlt, ⟨cd, hcd, hcp, hct⟩, htac⟩ := hentr (a, cid) hmem
    have hσc : σ cid = s' := by
      rw [hσroot] at htac
      rw [hta, Option.some_inj] at htac
      exact htac.symm
    refine ⟨?_, σ, hσc, ?_⟩
    · intro i nd p hnd hp
      exact hP i nd p hnd hp
    · intro i hpi
      have hpi0 : ChildPath { nodes := t.nodes, root := cid } cid i := hpi
      have hpi' : ChildPath t cid i :=
        @childPath_of_nodes_eq { nodes := t.nodes, root := cid } t rfl cid i hpi0
      have hpathcid : ChildPath t t.root cid :=
        @ChildPath.step t t.root t.root rd a cid .refl hrd hmem
      have hpi'' : ChildPath t t.root i := childPath_trans hpathcid hpi'
      exact hOK i hpi''
  | none =>
    have htta : treeTakeAction t a =
        { nodes := t.nodes ++ [freshNode], root := t.nodes.length } := by
      unfold treeTakeAction
      rw [hc]
    rw [htta]
    have hwfs : WFGame s := by
      rw [← hσroot]
      exact hwfr
    have hwfs' : WFGame s' := wfGame_takeAct hwfs hta
    have hfresh : getNode { nodes := t.nodes ++ [freshNode], root := t.nodes.length } t.nodes.length = some freshNode := by
      show (t.nodes ++ [freshNode])[t.nodes.length]? = _
      rw [List.getElem?_append, if_neg (by omega)]
      simp
    refine ⟨?_, fun _ => s', rfl, ?_⟩
    · intro i nd p hnd hp
      by_cases hil : i < t.nodes.length
      · have hgi : getNode { nodes := t.nodes ++ [freshNode], root := t.nodes.length } i = getNode t i := by
          show (t.nodes ++ [freshNode])[i]? = _
          rw [List.getElem?_append, if_pos hil]
          rfl
        rw [hgi] at hnd
        exact hP i nd p hnd hp
      · by_cases hie : i = t.nodes.length
        · subst hie
          rw [hfresh, Option.some_inj] at hnd
          rw [← hnd] at hp
          simp [freshNode] at hp
        · have hgi : getNode { nodes := t.nodes ++ [freshNode], root := t.nodes.length } i = none := by
            show (t.nodes ++ [freshNode])[i]? = none
            apply List.getElem?_eq_none
            simp only [List.length_append, List.length_cons, List.length_nil]
            omega
          rw [hgi] at hnd
          simp at hnd
    · intro i hpi
      have hi0 : i = t.nodes.length := childPath_childless hfresh rfl i hpi
      subst hi0
      refine ⟨freshNode, hfresh, by simp [freshNode], by simp [freshNode],
        fun h => absurd rfl h, hwfs', ?_⟩
      intro p hp
      simp [freshNode] at hp

theorem reachCfg_inv : ∀ {t : MTree} {s : Game}, ReachCfg t s → TreeInv t s := by
  intro t s h
  induction h with
  | init s hwf =>
    refine ⟨?_, fun _ => s, rfl, ?_⟩
    · intro i nd p hnd hp
      match i with
      | 0 =>
        rw [show getNode initTree 0 = some freshNode from rfl, Option.some_inj] at hnd
        rw [← hnd] at hp
        simp [freshNode] at hp
      | i + 1 => simp [getNode, initTree] at hnd
    · intro i hpi
      have hi0 : i = 0 := childPath_childless
        (show getNode initTree 0 = some freshNode from rfl) rfl i hpi
      subst hi0
      refine ⟨freshNode, rfl, by simp [freshNode], by simp [freshNode],
        fun h => absurd rfl h, hwf, ?_⟩
      intro p hp
      simp [freshNode] at hp
  | play t s r rs t' hre hp ih =>
    obtain ⟨t'', hp', hinv⟩ := playout_preserves_inv ih r rs
    rw [hp'] at hp
    have he : t'' = t' := Except.ok.inj hp
    rw [← he]
    exact hinv
  | move t s a s' hre hta ih => exact move_preserves_inv ih hta

/-- C8: in every configuration a default-policy agent run can reach,
the selection phase completes without error: every inner tree-policy
(UCT) invocation meets its preconditions — the node's trial count is
positive (no ln 0), every legal action has a corresponding child (no
KeyError) and every such child has positive trials (no division by
zero) — so selection's and UCT's error branches are unreachable. -/
theorem c8_selection_hits_no_error_branch {t : MTree} {s : Game}
    (h : ReachCfg t s) : ∃ f g, selection uct t t.root s = .ok (f, g) := by
  obtain ⟨hP, σ, hσroot, hOK⟩ := reachCfg_inv h
  obtain ⟨f, g', hsel, _, _⟩ := selection_ok_inv t σ hOK s t.root .refl hσroot
  exact ⟨f, g', hsel⟩

theorem wf_gameW : WFGame gameW := by
  refine WFGame.act _ _ _ (by simp) (by simp) ?_
  intro a ha
  exact WFGame.fin _ _

/-- Witness for C8: the freshly initialised agent on the concrete game
`gameW` is a reachable configuration, and selection succeeds on it. -/
theorem c8_witness :
    ReachCfg initTree gameW ∧
    (∃ f g, selection uct initTree initTree.root gameW = .ok (f, g)) :=
  ⟨ReachCfg.init gameW wf_gameW,
    c8_selection_hits_no_error_branch (ReachCfg.init gameW wf_gameW)⟩
